import Mathlib

/-!
Shallow embedding of `metanl/wordlist.py` (module `metanl.wordlist`).

Conventions used throughout this development:

* Python `float` values are modelled as exact rationals (`ℚ`).  All the
  arithmetic the code performs on frequencies (`+`, `*`, `/`, `max`,
  comparison) is carried out exactly.
* A Python text stream is modelled as its content, a `List Char`; splitting
  into lines is made explicit (`pyLines`), matching Python's file-line
  iteration.
* A Python `dict {str: float}` is modelled as an association list
  `List (String × Freq)` together with the operations `dictGet` (`dict.get`),
  `dictSet` (`d[k] = v`) and `dictAdd` (`d[k] += v` on a `defaultdict`
  with zero default).  Assignment to an existing key overwrites it in place,
  assignment to a fresh key appends it, exactly like insertion-ordered
  Python dictionaries.
* Python exceptions are modelled with `Except Err`; the constructors of
  `Err` classify the exception raised at each site (`IOError` from
  `pkg_resources.resource_stream` ↦ `notFound`, the `ValueError` raised by
  `max_freq` on an empty list ↦ `emptyTable`, `ZeroDivisionError` ↦
  `zeroDiv`, `ValueError` from malformed lines ↦ `formatError`, the
  `ValueError` raised by `get_frequency` on a word containing a space ↦
  `invalidQuery`).
* The external collaborator `preprocess_text` is an opaque parameter
  `pp : String → String`; every theorem quantifies over it.
-/

namespace Metanl

/-- Exception classification for the Python exceptions the module can raise. -/
inductive Err where
  | notFound
  | emptyTable
  | zeroDiv
  | formatError
  | invalidQuery
  deriving DecidableEq

/-- Python `float` frequencies are modelled as exact rationals. -/
abbrev Freq : Type := ℚ

/-- `d.get(w, v)` on a Python dict. -/
def dictGet (d : List (String × Freq)) (w : String) (v : Freq) : Freq :=
  (List.lookup w d).getD v

/-- `d[w] = v` on a Python dict: overwrite the existing entry in place,
or append a fresh one. -/
def dictSet (d : List (String × Freq)) (w : String) (v : Freq) :
    List (String × Freq) :=
  if d.any (fun p => p.1 = w) then
    d.map (fun p => if p.1 = w then (w, v) else p)
  else
    d ++ [(w, v)]

/-- `d[w] += v` on a Python `defaultdict` whose default is `0`. -/
def dictAdd (d : List (String × Freq)) (w : String) (v : Freq) :
    List (String × Freq) :=
  dictSet d w (dictGet d w 0 + v)

/-- Python 2 string comparison: lexicographic on code points.
(We do not use Lean's `String.lt`, whose well-founded definition does not
reduce in the kernel; this structural version is the faithful model of
Python's `<` on strings.) -/
def charsLt : List Char → List Char → Bool
  | [], [] => false
  | [], _ :: _ => true
  | _ :: _, [] => false
  | c :: cs, d :: ds =>
    if c < d then true
    else if d < c then false
    else charsLt cs ds

/-- Python `a < b` on strings. -/
def pyLt (a b : String) : Bool := charsLt a.data b.data

/-- Python `a <= b` on strings. -/
def pyLe (a b : String) : Bool := !(pyLt b a)

/-- Python `word.lower()`: character-wise lowercasing. -/
def pyLower (s : String) : String := String.mk (s.data.map Char.toLower)

/-- The class `Wordlist`: a mapping from words to frequencies
(`self.worddict`). -/
structure Wordlist where
  worddict : List (String × Freq)
  deriving DecidableEq

/-- `Wordlist.get(word, default)`. -/
def Wordlist.get (t : Wordlist) (w : String) (default : Freq) : Freq :=
  dictGet t.worddict w default

/-- The sort key used by `sorted_words`:
`sorted(keys, key=lambda word: (-worddict[word], word))`, i.e. `a` comes
no later than `b` iff `a`'s frequency is larger, or the frequencies tie and
`a <= b` as strings. -/
abbrev sortRel (t : Wordlist) (a b : String) : Prop :=
  t.get b 0 < t.get a 0 ∨ (t.get a 0 = t.get b 0 ∧ pyLe a b = true)

/-- `Wordlist.sorted_words` (a `lazy_property` in the source; memoisation is
observationally pure, so it is modelled as a function): the keys of
`worddict` sorted by descending frequency, ties broken by ascending string
order.  Python's `sorted` is a stable comparison sort; `insertionSort` is
stable as well, and over the relation `sortRel` (total, and antisymmetric
on the distinct dict keys) every correct sort produces the same list. -/
def Wordlist.sorted_words (t : Wordlist) : List String :=
  List.insertionSort (sortRel t) (t.worddict.map Prod.fst)

/-- `Wordlist.words`: `list(self.sorted_words)` (a fresh copy; value-wise the
same list). -/
def Wordlist.words (t : Wordlist) : List String := t.sorted_words

/-- `Wordlist.iteritems`: yields `(word, self.worddict[word])` for each word
of `sorted_words`, in that order. -/
def Wordlist.iteritems (t : Wordlist) : List (String × Freq) :=
  t.sorted_words.map (fun w => (w, dictGet t.worddict w 0))

/-- `Wordlist.max_freq`: `max(self.worddict.itervalues())`; raises
`ValueError` (modelled as `Err.emptyTable`) if the list is empty. -/
def Wordlist.max_freq (t : Wordlist) : Except Err Freq :=
  match t.worddict.map Prod.snd with
  | [] => Except.error Err.emptyTable
  | v :: vs => Except.ok (vs.foldl max v)

/-- Python `line.rstrip()`: drop trailing whitespace. -/
def rstrip (cs : List Char) : List Char :=
  (cs.reverse.dropWhile Char.isWhitespace).reverse

/-- Python `s.split(c)` for a single-character separator: always returns at
least one (possibly empty) chunk. -/
def splitOnChar (c : Char) : List Char → List (List Char)
  | [] => [[]]
  | x :: xs =>
    let r := splitOnChar c xs
    if x = c then [] :: r
    else
      match r with
      | [] => [[x]]
      | y :: ys => (x :: y) :: ys

/-- Python's iteration over the lines of a text file whose content is `cs`:
chunks separated by a newline character, without a final empty chunk when
the content ends in a newline. -/
def pyLines (cs : List Char) : List (List Char) :=
  let parts := splitOnChar '\n' cs
  if parts.getLast? = some [] then parts.dropLast else parts

/-- The decimal digit character for `n % 10`. -/
def digitChar (n : Nat) : Char :=
  if n % 10 = 0 then '0' else if n % 10 = 1 then '1'
  else if n % 10 = 2 then '2' else if n % 10 = 3 then '3'
  else if n % 10 = 4 then '4' else if n % 10 = 5 then '5'
  else if n % 10 = 6 then '6' else if n % 10 = 7 then '7'
  else if n % 10 = 8 then '8' else '9'

/-- Numeric value of a decimal digit character. -/
def digitVal (c : Char) : Nat := c.toNat - 48

/-- Value of a string of decimal digits. -/
def digitsVal (cs : List Char) : Nat :=
  cs.foldl (fun a c => a * 10 + digitVal c) 0

/-- Worker for `natToDigits`, structurally recursive on a fuel argument
(`fuel ≥ n` guarantees the fuel is never exhausted). -/
def natToDigitsAux : Nat → Nat → List Char
  | 0, n => [digitChar n]
  | fuel + 1, n =>
    if n < 10 then [digitChar n]
    else natToDigitsAux fuel (n / 10) ++ [digitChar (n % 10)]

/-- Decimal digits of `n`, most significant first. -/
def natToDigits (n : Nat) : List Char := natToDigitsAux n n

/-- Python `float(s)` on plain decimal notation (optional surrounding
whitespace, optional sign, digits with an optional single decimal point);
this is the subset of `float`'s grammar the wordlist files use. -/
def parseDecimal? (cs0 : List Char) : Option Freq :=
  let cs1 := rstrip (cs0.dropWhile Char.isWhitespace)
  let sign : Freq := if cs1.headI = '-' then -1 else 1
  let cs2 := if cs1.headI = '-' ∨ cs1.headI = '+' then cs1.tail else cs1
  let ip := cs2.takeWhile Char.isDigit
  let rest := cs2.dropWhile Char.isDigit
  if rest = [] then
    if ip.isEmpty then none else some (sign * (digitsVal ip : Freq))
  else
    if rest.headI = '.' ∧ rest.tail.all Char.isDigit ∧
        ¬(ip.isEmpty = true ∧ rest.tail.isEmpty = true) then
      some (sign * ((digitsVal ip : Freq) +
        (digitsVal rest.tail : Freq) / (10 : Freq) ^ rest.tail.length))
    else none

/-- One line of `_load_stream` / mode-1 `_load_new_stream`:
`word, freq = line.rstrip().split(','); freq = float(freq)`.  A line that
does not split into exactly two fields, or whose second field is not a
number, raises `ValueError` (`Err.formatError`). -/
def parseCanonLine (line : List Char) : Except Err (String × Freq) :=
  match splitOnChar ',' (rstrip line) with
  | [w, f] =>
    match parseDecimal? f with
    | some q => Except.ok (String.mk w, q)
    | none => Except.error Err.formatError
  | _ => Except.error Err.formatError

/-- `Wordlist._load_stream`: build a dict line by line, each assignment
overwriting any earlier entry for the same word. -/
def Wordlist.load_stream (lines : List (List Char)) : Except Err Wordlist := do
  let d ← lines.foldlM
    (fun d line => do
      let wf ← parseCanonLine line
      pure (dictSet d wf.1 wf.2))
    ([] : List (String × Freq))
  pure (Wordlist.mk d)

/-- The external byte-stream source (`pkg_resources.resource_stream`):
catalog filename ↦ file content, or `none` when there is no backing data. -/
abbrev Store : Type := String → Option (List Char)

/-- The process-wide `CACHE` dict, threaded explicitly. -/
abbrev Cache : Type := List (String × Wordlist)

/-- `Wordlist.load(filename)`: return the cached list if present; otherwise
read the stream from the store (raising `IOError`/`Err.notFound` when it has
no backing data), parse it with `_load_stream` and cache the result.  The
returned `Bool` records whether the backing store was read by this call. -/
def Wordlist.load (store : Store) (cache : Cache) (filename : String) :
    Except Err (Wordlist × Cache × Bool) :=
  match List.lookup filename cache with
  | some wl => Except.ok (wl, cache, false)
  | none =>
    match store filename with
    | none => Except.error Err.notFound
    | some content => do
      let wl ← Wordlist.load_stream (pyLines content)
      pure (wl, cache ++ [(filename, wl)], true)

/-- Format auto-detection of `_load_new_stream`, applied to the first line:
a tab character means mode 2 (logarithmic), otherwise a comma means mode 1
(linear), otherwise `ValueError`. -/
def detectMode (line : List Char) : Except Err Nat :=
  if line.contains '\t' then Except.ok 2
  else if line.contains ',' then Except.ok 1
  else Except.error Err.formatError

/-- One line of `_load_new_stream` in the detected mode.  Mode 1 parses
exactly like `_load_stream`; mode 2 splits on a tab and converts the parsed
decibel value with `10 ** (freq / 10)`.  That conversion is transcendental
and has no exact rational counterpart, so it is abstracted as the parameter
`db2lin`; every theorem quantifies over it. -/
def parseForeignLine (db2lin : Freq → Freq) (mode : Nat) (line : List Char) :
    Except Err (String × Freq) :=
  if mode = 1 then parseCanonLine line
  else
    match splitOnChar '\t' (rstrip line) with
    | [w, f] =>
      match parseDecimal? f with
      | some q => Except.ok (String.mk w, db2lin q)
      | none => Except.error Err.formatError
    | _ => Except.error Err.formatError

/-- `Wordlist._load_new_stream`: detect the mode from the first line, then
for every line set `word = preprocess_text(word).lower()` and accumulate
`worddict[word] += freq` on a zero-default dict. -/
def Wordlist.load_new_stream (pp : String → String) (db2lin : Freq → Freq)
    (lines : List (List Char)) : Except Err Wordlist :=
  match lines with
  | [] => Except.ok (Wordlist.mk [])
  | l0 :: _ => do
    let mode ← detectMode l0
    let d ← lines.foldlM
      (fun d line => do
        let wf ← parseForeignLine db2lin mode line
        pure (dictAdd d (pyLower (pp wf.1)) wf.2))
      ([] : List (String × Freq))
    pure (Wordlist.mk d)

/-- Round to the nearest integer, halves to even: the rounding Python's
`"%1.1f"` formatting applies to the scaled value. -/
def roundHalfEven (x : ℚ) : ℤ :=
  let f : ℤ := ⌊x⌋
  if x - f < 1 / 2 then f
  else if 1 / 2 < x - f then f + 1
  else if f % 2 = 0 then f else f + 1

/-- Python `"%1.1f" % q`: the decimal rendering of `q` rounded to one
fractional digit. -/
def formatTenth (q : Freq) : List Char :=
  (if roundHalfEven (10 * q) < 0 then ['-'] else []) ++
    natToDigits ((roundHalfEven (10 * q)).natAbs / 10) ++ ['.'] ++
    [digitChar ((roundHalfEven (10 * q)).natAbs % 10)]

/-- `Wordlist.save`: print `"%s,%1.1f" % (word, self.get(word))` for every
word of `sorted_words`, one line each; the result is the file content. -/
def Wordlist.save (t : Wordlist) : List Char :=
  (t.sorted_words.map
    (fun w => w.data ++ [','] ++ formatTenth (t.get w 0) ++ ['\n'])).flatten

/-- `merge_lists(weighted_lists)`: each entry is `(sublist, suffix, weight)`;
`factor` is `1`, overridden to `weight / sublist.max_freq` when `weight` is
not `None` and the sublist is non-empty (Python raises `ZeroDivisionError`
when that maximum is zero); every `(word, freq)` of the sublist contributes
`freq * factor` to `totals[word + suffix]` on a zero-default accumulator.
`merge_step` is the body of the loop over `weighted_lists`. -/
def merge_step (totals : List (String × Freq))
    (wsw : Wordlist × String × Option Freq) :
    Except Err (List (String × Freq)) := do
  let factor : Freq ←
    match wsw.2.2 with
    | none => pure (1 : Freq)
    | some weight =>
      if wsw.1.worddict.length > 0 then
        match wsw.1.max_freq with
        | Except.error e => Except.error e
        | Except.ok m =>
          if m = 0 then Except.error Err.zeroDiv
          else pure (weight / m)
      else pure (1 : Freq)
  pure (wsw.1.iteritems.foldl
    (fun acc p => dictAdd acc (p.1 ++ wsw.2.1) (p.2 * factor)) totals)

/-- `merge_lists(weighted_lists)`: fold `merge_step` over the specs and
wrap the accumulator in a `Wordlist`. -/
def merge_lists (weighted_lists : List (Wordlist × String × Option Freq)) :
    Except Err Wordlist := do
  let totals ← weighted_lists.foldlM merge_step ([] : List (String × Freq))
  pure (Wordlist.mk totals)

/-- `get_wordlist`'s language-to-filename resolution. -/
def wordlistFilename (lang : String) : String :=
  if lang = "en" then "multi-en.txt"
  else if lang = "en-books" then "google-unigrams.txt"
  else if lang = "en-twitter" then "twitter.txt"
  else if lang = "multi" then "multilingual.txt"
  else "leeds-internet-" ++ lang ++ ".txt"

/-- `get_wordlist(lang)`. -/
def get_wordlist (store : Store) (cache : Cache) (lang : String) :
    Except Err (Wordlist × Cache × Bool) :=
  Wordlist.load store cache (wordlistFilename lang)

/-- `get_frequency(word, lang, default_freq, scale)`.  Faithful to the
source's control flow: only a `ZeroDivisionError` raised by `get_wordlist`
itself is caught (returning `default_freq`); `factor = scale / max_freq` is
computed *outside* that `try`, so an empty list's `ValueError` and a zero
maximum's `ZeroDivisionError` propagate; the space check `" " in word`
happens after that, and the result is
`factor * freqs[preprocess_text(word).lower()] + default_freq`. -/
def get_frequency (pp : String → String) (store : Store) (cache : Cache)
    (word lang : String) (default_freq scale : Freq) :
    Except Err (Freq × Cache) :=
  match get_wordlist store cache lang with
  | Except.error Err.zeroDiv => Except.ok (default_freq, cache)
  | Except.error e => Except.error e
  | Except.ok (freqs, cache1, _) =>
    match freqs.max_freq with
    | Except.error e => Except.error e
    | Except.ok m =>
      if m = 0 then Except.error Err.zeroDiv
      else
        if word.data.contains ' ' then Except.error Err.invalidQuery
        else
          Except.ok
            (scale / m * freqs.get (pyLower (pp word)) 0 + default_freq, cache1)

/-- The maximum entry value of a wordlist, as a plain value (`0` for an
empty list; only used in contexts where the list is non-empty). -/
def maxVal (t : Wordlist) : Freq :=
  match t.worddict.map Prod.snd with
  | [] => 0
  | v :: vs => vs.foldl max v

/-- Spec-side description (§4.4 Merger) of the scale factor of one merge
spec: `1` if `target_max` is "unscaled" (`none`) or the source table is
empty; otherwise `target_max / source.max_frequency()`. -/
def spec_factor (s : Wordlist × String × Option Freq) : Freq :=
  match s.2.2 with
  | none => 1
  | some w => if s.1.worddict = [] then 1 else w / maxVal s.1

/-- Spec-side description of what one merge spec contributes to the output
key `k`: its factor times the sum of the source frequencies of all words
that map to `k` after suffixing. -/
def key_contribution (s : Wordlist × String × Option Freq) (k : String) :
    Freq :=
  spec_factor s *
    ((s.1.worddict.filter (fun p => p.1 ++ s.2.1 = k)).map Prod.snd).sum

/-- Concrete two-word English table used as a test fixture by witnesses. -/
def wlEn : Wordlist := Wordlist.mk [("the", 100), ("of", 50)]

/-- A store holding only `multi-en.txt`, with content parsing to `wlEn`. -/
def storeEn : Store :=
  fun f => if f = "multi-en.txt" then some ("the,100.0\nof,50.0\n").data
           else none

/-- A store whose `multi-en.txt` is an empty file (zero lines). -/
def storeEmptyTable : Store :=
  fun f => if f = "multi-en.txt" then some [] else none

/-! A miniature heap of Python list objects, used to express the aliasing
behaviour of `Wordlist.words`: `list(self.sorted_words)` allocates a fresh
list object whose contents are copied from the memoised `_sorted_words`
list, so mutating the returned object cannot affect the wordlist. -/

/-- A heap of Python list-of-string objects; an address is an index. -/
abbrev Heap : Type := List (List String)

/-- Dereference an address (unallocated addresses read as `[]`). -/
def heapRead (h : Heap) (a : Nat) : List String := h.getD a []

/-- In-place mutation of the list object at address `a`. -/
def heapWrite (h : Heap) (a : Nat) (v : List String) : Heap := h.set a v

/-- The call `t.words()` in a heap where the memoised `sorted_words` list
lives at address `a0`: `list(...)` allocates a fresh object holding a copy
of the contents, and returns its address. -/
def wordsCall (h : Heap) (a0 : Nat) : Heap × Nat :=
  (h ++ [heapRead h a0], h.length)

/-! ### Generic lemmas about the dictionary model and `Except` folds -/

theorem except_bind_ok {ε α β : Type} (a : α) (f : α → Except ε β) :
    (Except.ok a : Except ε α) >>= f = f a := rfl

theorem except_bind_error {ε α β : Type} (e : ε) (f : α → Except ε β) :
    (Except.error e : Except ε α) >>= f = Except.error e := rfl

theorem except_pure {ε α : Type} (a : α) :
    (pure a : Except ε α) = Except.ok a := rfl

theorem except_pure_bind {ε α β : Type} (a : α) (f : α → Except ε β) :
    (pure a : Except ε α) >>= f = f a := rfl

theorem bool_eq_false {b : Bool} (h : ¬b = true) : b = false := by
  cases b
  · rfl
  · exact absurd rfl h

theorem lookup_cons_ite {β : Type} (u k : String) (b : β)
    (es : List (String × β)) :
    List.lookup u ((k, b) :: es) =
      if u = k then some b else List.lookup u es := by
  rw [List.lookup_cons]
  by_cases h : u = k
  · simp [h]
  · simp [beq_eq_false_iff_ne.mpr h, h]

theorem lookup_map_overwrite (w : String) (v : Freq) :
    ∀ (d : List (String × Freq)) (u : String),
      List.lookup u (d.map (fun p => if p.1 = w then (w, v) else p)) =
        if u = w then (if d.any (fun p => p.1 = w) then some v else none)
        else List.lookup u d := by
  intro d
  induction d with
  | nil => intro u; by_cases hu : u = w <;> simp [hu]
  | cons p ps ih =>
    intro u
    obtain ⟨k, b⟩ := p
    by_cases hk : k = w
    · subst hk
      by_cases hu : u = k <;>
        simp [lookup_cons_ite, hu, ih]
    · by_cases hu : u = w
      · have huk : ¬u = k := fun h => hk (by rw [← h, hu])
        have hwk : ¬w = k := fun h => hk h.symm
        have hdk : decide (k = w) = false := decide_eq_false hk
        cases hX : ps.any (fun p => decide (p.1 = w)) <;>
          simp [lookup_cons_ite, hu, huk, hk, hwk, hdk, hX, ih]
      · by_cases huk : u = k <;>
          simp [lookup_cons_ite, hu, huk, hk, ih]

theorem lookup_eq_none_of_not_any (w : String)
    (d : List (String × Freq))
    (h : d.any (fun p => p.1 = w) = false) :
    List.lookup w d = none := by
  induction d with
  | nil => simp
  | cons p ps ih =>
    simp only [List.any_cons, Bool.or_eq_false_iff] at h
    obtain ⟨k, b⟩ := p
    have hk : ¬w = k := by
      intro he
      simp [he] at h
    rw [lookup_cons_ite, if_neg hk]
    exact ih h.2

theorem lookup_dictSet (d : List (String × Freq)) (w : String) (v : Freq)
    (u : String) :
    List.lookup u (dictSet d w v) =
      if u = w then some v else List.lookup u d := by
  unfold dictSet
  by_cases hany : d.any (fun p => p.1 = w)
  · simp only [hany, if_true, lookup_map_overwrite]
  · have hnone : List.lookup w d = none :=
      lookup_eq_none_of_not_any w d (bool_eq_false hany)
    rw [if_neg hany, List.lookup_append]
    by_cases hu : u = w
    · simp [hu, hnone, lookup_cons_ite, Option.or]
    · cases hd : List.lookup u d <;>
        simp [hd, hu, lookup_cons_ite, Option.or]

theorem dictGet_eq (d : List (String × Freq)) (w : String) (v : Freq) :
    dictGet d w v = (List.lookup w d).getD v := rfl

theorem lookup_dictAdd (d : List (String × Freq)) (w : String) (v : Freq)
    (u : String) :
    List.lookup u (dictAdd d w v) =
      if u = w then some (dictGet d w 0 + v) else List.lookup u d := by
  unfold dictAdd
  exact lookup_dictSet d w _ u

theorem dictGet_dictAdd (d : List (String × Freq)) (w : String) (v : Freq)
    (u : String) :
    dictGet (dictAdd d w v) u 0 =
      dictGet d u 0 + (if u = w then v else 0) := by
  rw [dictGet_eq, lookup_dictAdd]
  by_cases hu : u = w <;> simp [hu, dictGet_eq]

/-- The value at `w` after a fold of `d[g p] += h p` updates: the initial
value plus the sum of the contributions whose key collapses to `w`. -/
theorem dictGet_foldl_add {α : Type} (g : α → String) (h : α → Freq)
    (w : String) :
    ∀ (l : List α) (d0 : List (String × Freq)),
      dictGet (l.foldl (fun d p => dictAdd d (g p) (h p)) d0) w 0 =
        dictGet d0 w 0 + ((l.filter (fun p => g p = w)).map h).sum := by
  intro l
  induction l with
  | nil => intro d0; simp
  | cons a l ih =>
    intro d0
    rw [List.foldl_cons, ih, dictGet_dictAdd]
    by_cases ha : g a = w
    · have ha' : w = g a := ha.symm
      simp [List.filter_cons, decide_eq_true ha, if_pos ha']
      ring
    · have ha' : ¬w = g a := fun h => ha h.symm
      simp [List.filter_cons, decide_eq_false ha, if_neg ha']

/-- The lookup after a fold of `d[p.1] = p.2` assignments: the last
assignment for the key wins, falling back to the initial dictionary. -/
theorem lookup_foldl_set (w : String) :
    ∀ (pairs : List (String × Freq)) (d0 : List (String × Freq)),
      List.lookup w (pairs.foldl (fun d p => dictSet d p.1 p.2) d0) =
        (List.lookup w pairs.reverse).or (List.lookup w d0) := by
  intro pairs
  induction pairs with
  | nil => intro d0; simp [Option.or]
  | cons a l ih =>
    intro d0
    rw [List.foldl_cons, ih, List.reverse_cons, List.lookup_append]
    obtain ⟨k, b⟩ := a
    by_cases hw : w = k
    · cases hl : List.lookup w l.reverse <;>
        simp [hl, lookup_dictSet, hw, lookup_cons_ite, Option.or]
    · cases hl : List.lookup w l.reverse <;>
        simp [hl, lookup_dictSet, hw, lookup_cons_ite, Option.or]

/-- Success of an effectful fold whose step parses with `f` and then applies
the pure update `upd` decomposes into success of `mapM f` plus a pure
fold. -/
theorem foldlM_except_eq_fold {α β δ : Type} (f : α → Except Err β)
    (upd : δ → β → δ) :
    ∀ (l : List α) (d0 : δ) (r : δ),
      l.foldlM (fun d a => do
        let b ← f a
        pure (upd d b)) d0 = Except.ok r →
      ∃ bs, l.mapM f = Except.ok bs ∧ r = bs.foldl upd d0 := by
  intro l
  induction l with
  | nil =>
    intro d0 r hr
    refine ⟨[], rfl, ?_⟩
    simpa [List.foldlM, except_pure] using hr.symm
  | cons a l ih =>
    intro d0 r hr
    rw [List.foldlM_cons] at hr
    cases hfa : f a with
    | error e =>
      rw [hfa] at hr
      simp only [except_bind_error] at hr
      exact absurd hr (by simp)
    | ok b =>
      rw [hfa] at hr
      simp only [except_bind_ok, except_pure] at hr
      obtain ⟨bs, hbs, hrfold⟩ := ih (upd d0 b) r hr
      refine ⟨b :: bs, ?_, by simp [hrfold]⟩
      have hbs' : List.mapM.loop f l [] = Except.ok bs := hbs
      rw [List.mapM_cons, hfa]
      simp [hbs, hbs', except_bind_ok, except_pure]

/-- Evaluation fixture: loading `multi-en.txt` from `storeEn` on an empty
cache parses the two-line file into `wlEn`, caches it and reports a read. -/
theorem storeEn_load :
    Wordlist.load storeEn [] "multi-en.txt" =
      Except.ok (wlEn, [("multi-en.txt", wlEn)], true) := by
  have h1 : storeEn "multi-en.txt" = some ("the,100.0\nof,50.0\n").data := rfl
  unfold Wordlist.load
  rw [h1]
  have h2 : Wordlist.load_stream (pyLines ("the,100.0\nof,50.0\n").data) =
      Except.ok wlEn := by
    simp +decide [Wordlist.load_stream, pyLines, parseCanonLine, parseDecimal?,
      rstrip, splitOnChar, digitsVal, digitVal, List.foldlM, except_bind_ok,
      except_pure, dictSet, dictGet, wlEn]
  simp [h2, except_bind_ok, except_pure]

/-! ### C6 -/

/-- C6: once `load(filename)` has succeeded with table `wl` and cache
`cache1`, a later `load(filename)` on that cache returns the very same
table, leaves the cache entry untouched, and does not read the backing
store again. -/
theorem C6_load_cached_once (store : Store) (cache : Cache)
    (filename : String) (wl : Wordlist) (cache1 : Cache) (read1 : Bool)
    (h : Wordlist.load store cache filename =
      Except.ok (wl, cache1, read1)) :
    List.lookup filename cache1 = some wl ∧
      Wordlist.load store cache1 filename = Except.ok (wl, cache1, false) := by
  unfold Wordlist.load at h
  cases hc : List.lookup filename cache with
  | some w0 =>
    simp only [hc, Except.ok.injEq, Prod.mk.injEq] at h
    obtain ⟨rfl, rfl, rfl⟩ := h
    refine ⟨hc, ?_⟩
    unfold Wordlist.load
    simp only [hc]
  | none =>
    simp only [hc] at h
    cases hs : store filename with
    | none =>
      simp only [hs] at h
      exact Except.noConfusion h
    | some content =>
      simp only [hs] at h
      cases hls : Wordlist.load_stream (pyLines content) with
      | error e =>
        rw [hls] at h
        simp only [except_bind_error] at h
        exact Except.noConfusion h
      | ok w1 =>
        rw [hls] at h
        simp only [except_bind_ok, except_pure, Except.ok.injEq,
          Prod.mk.injEq] at h
        obtain ⟨rfl, rfl, rfl⟩ := h
        have hl1 : List.lookup filename (cache ++ [(filename, w1)]) =
            some w1 := by
          rw [List.lookup_append, hc]
          simp [lookup_cons_ite, Option.or]
        refine ⟨hl1, ?_⟩
        unfold Wordlist.load
        simp only [hl1]

/-- C6 witness: a concrete first load from `storeEn` reads the store; the
repeated load returns the identical table and cache with no read. -/
theorem C6_load_cached_once_witness :
    List.lookup "multi-en.txt" [("multi-en.txt", wlEn)] = some wlEn ∧
      Wordlist.load storeEn [("multi-en.txt", wlEn)] "multi-en.txt" =
        Except.ok (wlEn, [("multi-en.txt", wlEn)], false) :=
  C6_load_cached_once storeEn [] "multi-en.txt" wlEn
    [("multi-en.txt", wlEn)] true storeEn_load

/-! ### C10 -/

/-- C10: `t.words()` returns a fresh copy of the memoised `sorted_words`
list.  In the heap model: if the memoised list object of `t` lives at
address `a0` (holding `t.sorted_words`), the address returned by a
`words()` call is distinct from `a0`; after mutating the returned object
arbitrarily, the memoised list still holds `t.sorted_words`, a later
`words()` call still returns `t.sorted_words`, and `t.worddict` (which
does not live on this heap at all) is untouched. -/
theorem C10_words_returns_fresh_copy (t : Wordlist) (h : Heap) (a0 : Nat)
    (v : List String) (ha : a0 < h.length)
    (hm : heapRead h a0 = t.sorted_words) :
    (wordsCall h a0).2 ≠ a0 ∧
      heapRead (heapWrite (wordsCall h a0).1 (wordsCall h a0).2 v) a0 =
        t.sorted_words ∧
      heapRead
          (wordsCall (heapWrite (wordsCall h a0).1 (wordsCall h a0).2 v) a0).1
          (wordsCall (heapWrite (wordsCall h a0).1 (wordsCall h a0).2 v) a0).2
        = t.sorted_words := by
  have hne : h.length ≠ a0 := fun he => absurd (he ▸ ha) (lt_irrefl _)
  have hread : heapRead (heapWrite (h ++ [heapRead h a0]) h.length v) a0 =
      t.sorted_words := by
    unfold heapRead heapWrite
    rw [List.getD_eq_getElem?_getD, List.getElem?_set_ne hne]
    rw [List.getElem?_append_left ha]
    rw [← List.getD_eq_getElem?_getD]
    exact hm
  refine ⟨hne, hread, ?_⟩
  show heapRead
      (heapWrite (h ++ [heapRead h a0]) h.length v ++
        [heapRead (heapWrite (h ++ [heapRead h a0]) h.length v) a0])
      (heapWrite (h ++ [heapRead h a0]) h.length v).length = t.sorted_words
  unfold heapRead
  rw [List.getD_eq_getElem?_getD, List.getElem?_concat_length]
  simpa [heapRead] using hread

/-- C10 witness: concrete two-object heap. -/
theorem C10_words_returns_fresh_copy_witness :
    (wordsCall [["b", "a"]] 0).2 ≠ 0 ∧
      heapRead (heapWrite (wordsCall [["b", "a"]] 0).1
          (wordsCall [["b", "a"]] 0).2 ["mutated"]) 0 =
        (Wordlist.mk [("a", 1), ("b", 2)]).sorted_words ∧
      heapRead
          (wordsCall (heapWrite (wordsCall [["b", "a"]] 0).1
              (wordsCall [["b", "a"]] 0).2 ["mutated"]) 0).1
          (wordsCall (heapWrite (wordsCall [["b", "a"]] 0).1
              (wordsCall [["b", "a"]] 0).2 ["mutated"]) 0).2
        = (Wordlist.mk [("a", 1), ("b", 2)]).sorted_words :=
  C10_words_returns_fresh_copy (Wordlist.mk [("a", 1), ("b", 2)])
    [["b", "a"]] 0 ["mutated"] (by decide) (by decide)

/-! ### C1 -/

/-- C1 counterexample: with a store that has no backing data for any
filename, `get_frequency("the", "en", default=100)` does not return the
default — the `IOError`/`NotFoundError` from the stream lookup is raised
inside `get_wordlist` but the surrounding `try` only catches
`ZeroDivisionError`, so the error propagates. -/
theorem C1_counterexample :
    get_frequency id (fun _ => none) [] "the" "en" 100 1000000000 =
        Except.error Err.notFound ∧
      get_frequency id (fun _ => none) [] "the" "en" 100 1000000000 ≠
        Except.ok (100, []) :=
  ⟨rfl, fun h => Except.noConfusion h⟩

/-- C1 (amended): `get_frequency` catches only a `ZeroDivisionError` raised
by `get_wordlist` itself; a missing catalog file propagates as
`NotFoundError`, and an empty table propagates as the `EmptyTableError`
raised by `max_freq` while computing the factor (that computation sits
outside the `try`).  Neither is converted to the caller's default. -/
theorem C1_amended_error_propagation :
    (∀ (pp : String → String) (store : Store) (cache : Cache)
        (word lang : String) (d s : Freq),
        List.lookup (wordlistFilename lang) cache = none →
        store (wordlistFilename lang) = none →
        get_frequency pp store cache word lang d s =
          Except.error Err.notFound) ∧
    (∀ (pp : String → String) (store : Store) (cache : Cache)
        (word lang : String) (d s : Freq) (t : Wordlist) (c1 : Cache)
        (rd : Bool),
        get_wordlist store cache lang = Except.ok (t, c1, rd) →
        t.worddict = [] →
        get_frequency pp store cache word lang d s =
          Except.error Err.emptyTable) := by
  constructor
  · intro pp store cache word lang d s hc hs
    unfold get_frequency get_wordlist Wordlist.load
    simp only [hc, hs]
  · intro pp store cache word lang d s t c1 rd hw ht
    unfold get_frequency
    rw [hw]
    have hmf : t.max_freq = Except.error Err.emptyTable := by
      unfold Wordlist.max_freq
      rw [ht]
      rfl
    simp only [hmf]

/-- C1 amended witness: concrete instances of both propagation behaviours
(missing file, and empty table loaded from an empty file). -/
theorem C1_amended_error_propagation_witness :
    get_frequency id (fun _ => none) [] "word" "fr" 7 2 =
        Except.error Err.notFound ∧
      get_frequency id storeEmptyTable [] "word" "en" 7 2 =
        Except.error Err.emptyTable :=
  ⟨C1_amended_error_propagation.1 id (fun _ => none) [] "word" "fr" 7 2
      rfl rfl,
    C1_amended_error_propagation.2 id storeEmptyTable [] "word" "en" 7 2
      (Wordlist.mk []) [("multi-en.txt", Wordlist.mk [])] true rfl rfl⟩

/-! ### C8 -/

/-- C8 counterexample: `"a\tb"` contains whitespace (a tab), yet
`get_frequency` does not fail with the invalid-query error — the source
only checks for the space character `" "`, so the query succeeds and
returns `0`. -/
theorem C8_counterexample :
    ("a\tb").data.any Char.isWhitespace = true ∧
      get_frequency id storeEn [] "a\tb" "en" 0 1000000000 =
        Except.ok (0, [("multi-en.txt", wlEn)]) := by
  refine ⟨by decide, ?_⟩
  unfold get_frequency get_wordlist
  have h1 : wordlistFilename "en" = "multi-en.txt" := rfl
  have h2 : wlEn.max_freq = Except.ok 100 := by
    unfold Wordlist.max_freq wlEn
    norm_num
  have h4 : wlEn.get (pyLower (id "a\tb")) 0 = 0 := rfl
  norm_num +decide [h1, h2, h4, storeEn_load]

/-- C8 (amended): for every word containing a *space character* `" "` (the
only whitespace the source checks for), once the language's table has
loaded successfully and its maximum frequency is non-zero, `get_frequency`
fails with the invalid-query error.  (When the load itself fails, that
earlier error is raised instead.) -/
theorem C8_amended_space_rejected (pp : String → String) (store : Store)
    (cache : Cache) (word lang : String) (d s : Freq) (t : Wordlist)
    (c1 : Cache) (rd : Bool) (m : Freq)
    (h1 : get_wordlist store cache lang = Except.ok (t, c1, rd))
    (h2 : t.max_freq = Except.ok m) (h3 : m ≠ 0)
    (h4 : word.data.contains ' ' = true) :
    get_frequency pp store cache word lang d s =
      Except.error Err.invalidQuery := by
  unfold get_frequency
  simp only [h1, h2, if_neg h3, h4, if_true]

/-- C8 amended witness: `get_frequency("a b", "en")` on the concrete store
fails with the invalid-query error. -/
theorem C8_amended_space_rejected_witness :
    get_frequency id storeEn [] "a b" "en" 0 1000000000 =
      Except.error Err.invalidQuery :=
  C8_amended_space_rejected id storeEn [] "a b" "en" 0 1000000000 wlEn
    [("multi-en.txt", wlEn)] true 100 storeEn_load
    (by unfold Wordlist.max_freq wlEn; norm_num) (by norm_num) (by decide)

/-! ### C5 -/

/-- C5: whenever the table for `lang` loads successfully with a non-zero
maximum frequency `m` and the word contains no space, `get_frequency`
returns `scale / m * table.get(preprocess(word).lower(), 0) + default`;
in particular, when the normalised word's frequency is exactly `m`, the
call with default `0` returns exactly `scale`. -/
theorem C5_frequency_formula (pp : String → String) (store : Store)
    (cache : Cache) (word lang : String) (d s : Freq) (t : Wordlist)
    (c1 : Cache) (rd : Bool) (m : Freq)
    (h1 : get_wordlist store cache lang = Except.ok (t, c1, rd))
    (h2 : t.max_freq = Except.ok m) (h3 : m ≠ 0)
    (h4 : word.data.contains ' ' = false) :
    get_frequency pp store cache word lang d s =
        Except.ok (s / m * t.get (pyLower (pp word)) 0 + d, c1) ∧
      (t.get (pyLower (pp word)) 0 = m →
        get_frequency pp store cache word lang 0 s = Except.ok (s, c1)) := by
  have hmain : ∀ dd : Freq, get_frequency pp store cache word lang dd s =
      Except.ok (s / m * t.get (pyLower (pp word)) 0 + dd, c1) := by
    intro dd
    unfold get_frequency
    simp only [h1, h2, if_neg h3, h4, Bool.false_eq_true, if_false]
  refine ⟨hmain d, fun hmax => ?_⟩
  rw [hmain 0, hmax]
  rw [div_mul_cancel₀ s h3, add_zero]

/-- C5 witness: on the concrete store, `"the"` is the most frequent word of
the English table, and `get_frequency("the", "en", scale=42)` returns
exactly `42`. -/
theorem C5_frequency_formula_witness :
    get_frequency id storeEn [] "the" "en" 0 42 =
      Except.ok (42, [("multi-en.txt", wlEn)]) :=
  (C5_frequency_formula id storeEn [] "the" "en" 0 42 wlEn
      [("multi-en.txt", wlEn)] true 100 storeEn_load
      (by unfold Wordlist.max_freq wlEn; norm_num) (by norm_num)
      (by decide)).2 rfl

/-! ### C3 -/

theorem sum_filter_map_key {α : Type} (g : α → String) (h : α → Freq)
    (w : String) :
    ∀ l : List α,
      (((l.map (fun p => (g p, h p))).filter (fun q => q.1 = w)).map
          Prod.snd).sum =
        ((l.filter (fun p => g p = w)).map h).sum := by
  intro l
  induction l with
  | nil => simp
  | cons a l ih =>
    by_cases ha : g a = w
    · simp only [List.map_cons, List.filter_cons, decide_eq_true ha,
        if_true, List.map_cons, List.sum_cons, ih]
    · simp only [List.map_cons, List.filter_cons, decide_eq_false ha,
        Bool.false_eq_true, if_false, ih]

/-- C3: the two loaders treat duplicate keys differently.  For a canonical
stream that parses to the pair list `pairs`, the table maps each word to
the frequency of its *last* occurrence (lookup in the reversed pair list);
for a foreign stream, each parsed word is normalised by
`preprocess`-then-lowercase, and the frequencies of all lines mapping to
the same normalised key are *summed* starting from zero. -/
theorem C3_duplicate_key_semantics :
    (∀ (lines : List (List Char)) (pairs : List (String × Freq))
        (t : Wordlist),
        lines.mapM parseCanonLine = Except.ok pairs →
        Wordlist.load_stream lines = Except.ok t →
        ∀ w, List.lookup w t.worddict = List.lookup w pairs.reverse) ∧
    (∀ (pp : String → String) (db2lin : Freq → Freq) (l0 : List Char)
        (rest : List (List Char)) (mode : Nat)
        (pairs : List (String × Freq)) (t : Wordlist),
        detectMode l0 = Except.ok mode →
        (l0 :: rest).mapM (parseForeignLine db2lin mode) = Except.ok pairs →
        Wordlist.load_new_stream pp db2lin (l0 :: rest) = Except.ok t →
        ∀ w, dictGet t.worddict w 0 =
          (((pairs.map (fun p => (pyLower (pp p.1), p.2))).filter
              (fun q => q.1 = w)).map Prod.snd).sum) := by
  constructor
  · intro lines pairs t hmap hload w
    unfold Wordlist.load_stream at hload
    cases hf : lines.foldlM
        (fun d line => do
          let wf ← parseCanonLine line
          pure (dictSet d wf.1 wf.2))
        ([] : List (String × Freq)) with
    | error e =>
      rw [hf] at hload
      simp only [except_bind_error] at hload
      exact Except.noConfusion hload
    | ok d =>
      rw [hf] at hload
      simp only [except_bind_ok, except_pure, Except.ok.injEq] at hload
      obtain ⟨bs, hbs, hd⟩ := foldlM_except_eq_fold parseCanonLine
        (fun d b => dictSet d b.1 b.2) lines [] d hf
      rw [hbs] at hmap
      obtain rfl : bs = pairs := by cases hmap; rfl
      subst hload
      rw [hd, lookup_foldl_set]
      simp
  · intro pp db2lin l0 rest mode pairs t hdet hmap hload w
    unfold Wordlist.load_new_stream at hload
    simp only [hdet, except_bind_ok] at hload
    cases hf : (l0 :: rest).foldlM
        (fun d line => do
          let wf ← parseForeignLine db2lin mode line
          pure (dictAdd d (pyLower (pp wf.1)) wf.2))
        ([] : List (String × Freq)) with
    | error e =>
      rw [hf] at hload
      simp only [except_bind_error] at hload
      exact Except.noConfusion hload
    | ok d =>
      rw [hf] at hload
      simp only [except_bind_ok, except_pure, Except.ok.injEq] at hload
      obtain ⟨bs, hbs, hd⟩ := foldlM_except_eq_fold
        (parseForeignLine db2lin mode)
        (fun d b => dictAdd d (pyLower (pp b.1)) b.2) (l0 :: rest) [] d hf
      rw [hbs] at hmap
      obtain rfl : bs = pairs := by cases hmap; rfl
      subst hload
      rw [hd]
      rw [dictGet_foldl_add (fun b => pyLower (pp b.1)) Prod.snd w bs []]
      rw [sum_filter_map_key (fun b => pyLower (pp b.1)) Prod.snd w bs]
      simp [dictGet]

/-- C3 witness: `a,1.0` then `a,2.5` loads canonically to `{a: 2.5}` (last
wins), while the foreign loader with identity collaborators sums `A,1.0`
and `a,2.5` into `{a: 3.5}` after lowercasing. -/
theorem C3_duplicate_key_semantics_witness :
    List.lookup "a" (Wordlist.mk [("a", (5 : Freq)/2)]).worddict =
        List.lookup "a"
          ([("a", (1 : Freq)), ("a", (5 : Freq)/2)]).reverse ∧
      dictGet (Wordlist.mk [("a", (7 : Freq)/2)]).worddict "a" 0 =
        ((([("A", (1 : Freq)), ("a", (5 : Freq)/2)].map
            (fun p => (pyLower (id p.1), p.2))).filter
            (fun q => q.1 = "a")).map Prod.snd).sum := by
  have hmap1 : [("a,1.0").data, ("a,2.5").data].mapM parseCanonLine =
      Except.ok [("a", (1 : Freq)), ("a", (5 : Freq)/2)] := by
    simp +decide [List.mapM, List.mapM.loop, parseCanonLine,
      parseDecimal?, rstrip, splitOnChar, digitsVal, digitVal,
      except_bind_ok, except_pure]
    norm_num
  have hload1 : Wordlist.load_stream [("a,1.0").data, ("a,2.5").data] =
      Except.ok (Wordlist.mk [("a", (5 : Freq)/2)]) := by
    simp +decide [Wordlist.load_stream, parseCanonLine, parseDecimal?,
      rstrip, splitOnChar, digitsVal, digitVal, List.foldlM,
      except_bind_ok, except_pure, dictSet, dictGet]
    norm_num
  have hdet2 : detectMode ("A,1.0").data = Except.ok 1 := rfl
  have hmap2 : [("A,1.0").data, ("a,2.5").data].mapM
      (parseForeignLine id 1) =
      Except.ok [("A", (1 : Freq)), ("a", (5 : Freq)/2)] := by
    simp +decide [List.mapM, List.mapM.loop, parseForeignLine,
      parseCanonLine, parseDecimal?, rstrip, splitOnChar, digitsVal,
      digitVal, except_bind_ok, except_pure]
    norm_num
  have hload2 : Wordlist.load_new_stream id id
      [("A,1.0").data, ("a,2.5").data] =
      Except.ok (Wordlist.mk [("a", (7 : Freq)/2)]) := by
    simp +decide [Wordlist.load_new_stream, detectMode, parseForeignLine,
      parseCanonLine, parseDecimal?, rstrip, splitOnChar, digitsVal,
      digitVal, List.foldlM, except_bind_ok, except_pure, dictAdd, dictSet,
      dictGet, pyLower]
    norm_num
  exact ⟨C3_duplicate_key_semantics.1 [("a,1.0").data, ("a,2.5").data]
      [("a", 1), ("a", 5/2)] (Wordlist.mk [("a", 5/2)]) hmap1 hload1 "a",
    C3_duplicate_key_semantics.2 id id ("A,1.0").data [("a,2.5").data] 1
      [("A", 1), ("a", 5/2)] (Wordlist.mk [("a", 7/2)]) hdet2 hmap2
      hload2 "a"⟩

/-! ### C2 -/

theorem max_freq_ok (t : Wordlist) (h : t.worddict ≠ []) :
    t.max_freq = Except.ok (maxVal t) := by
  unfold Wordlist.max_freq maxVal
  cases hm : t.worddict.map Prod.snd with
  | nil => exact absurd (List.map_eq_nil_iff.mp hm) h
  | cons v vs => rfl

theorem map_key_self :
    ∀ d : List (String × Freq),
      (d.map Prod.fst).Nodup →
      (d.map Prod.fst).map (fun w => (w, dictGet d w 0)) = d := by
  intro d
  induction d with
  | nil => intro _; rfl
  | cons p rest ih =>
    intro hnd
    obtain ⟨k, b⟩ := p
    rw [List.map_cons, List.nodup_cons] at hnd
    rw [List.map_cons, List.map_cons]
    have hhead : dictGet ((k, b) :: rest) k 0 = b := by
      rw [dictGet_eq, lookup_cons_ite, if_pos rfl]
      rfl
    rw [hhead]
    have htail : (rest.map Prod.fst).map
        (fun w => (w, dictGet ((k, b) :: rest) w 0)) =
        (rest.map Prod.fst).map (fun w => (w, dictGet rest w 0)) := by
      apply List.map_congr_left
      intro w hw
      have hwk : ¬w = k := fun he => hnd.1 (he ▸ hw)
      rw [dictGet_eq, lookup_cons_ite, if_neg hwk, ← dictGet_eq]
    rw [htail, ih hnd.2]

theorem iteritems_perm (t : Wordlist)
    (hnd : (t.worddict.map Prod.fst).Nodup) :
    t.iteritems.Perm t.worddict := by
  unfold Wordlist.iteritems Wordlist.sorted_words
  have hp := (List.perm_insertionSort (sortRel t) (t.worddict.map Prod.fst))
  exact ((hp.map (fun w => (w, dictGet t.worddict w 0))).trans
    (List.Perm.of_eq (map_key_self t.worddict hnd)))

theorem sum_map_mul_snd (fac : Freq) :
    ∀ l : List (String × Freq),
      (l.map (fun p => p.2 * fac)).sum = fac * (l.map Prod.snd).sum := by
  intro l
  induction l with
  | nil => simp
  | cons a l ih =>
    simp [ih]
    ring

theorem contribution_eq (wl : Wordlist) (suffix : String) (fac : Freq)
    (hnd : (wl.worddict.map Prod.fst).Nodup) (k : String) :
    ((wl.iteritems.filter (fun p => p.1 ++ suffix = k)).map
        (fun p => p.2 * fac)).sum =
      fac * ((wl.worddict.filter (fun p => p.1 ++ suffix = k)).map
        Prod.snd).sum := by
  have hperm := (iteritems_perm wl hnd).filter
    (fun p => decide (p.1 ++ suffix = k))
  rw [List.Perm.sum_eq (hperm.map (fun p => p.2 * fac))]
  exact sum_map_mul_snd fac _

/-- Characterisation of the fold of `merge_step`: under success, the final
value at key `k` is the initial value plus the sum of each spec's
`key_contribution`. -/
theorem merge_step_foldlM_char :
    ∀ (specs : List (Wordlist × String × Option Freq))
      (t0 r : List (String × Freq)),
      specs.foldlM merge_step t0 = Except.ok r →
      (∀ s ∈ specs, (s.1.worddict.map Prod.fst).Nodup) →
      ∀ k, dictGet r k 0 =
        dictGet t0 k 0 + (specs.map (fun s => key_contribution s k)).sum := by
  intro specs
  induction specs with
  | nil =>
    intro t0 r h _ k
    obtain rfl : t0 = r := by
      simpa [List.foldlM, except_pure] using h
    simp
  | cons s rest ih =>
    intro t0 r h hnd k
    rw [List.foldlM_cons] at h
    obtain ⟨wl, suffix, weight⟩ := s
    have hnds : (wl.worddict.map Prod.fst).Nodup :=
      hnd (wl, suffix, weight) (List.mem_cons_self _ _)
    have hndr : ∀ s ∈ rest, (s.1.worddict.map Prod.fst).Nodup :=
      fun s hs => hnd s (List.mem_cons_of_mem _ hs)
    -- resolve the factor computation of the head spec
    have hstep : ∀ fac : Freq, fac = spec_factor (wl, suffix, weight) →
        rest.foldlM merge_step
          (wl.iteritems.foldl
            (fun acc p => dictAdd acc (p.1 ++ suffix) (p.2 * fac)) t0) =
          Except.ok r →
        dictGet r k 0 =
          dictGet t0 k 0 +
            ((key_contribution (wl, suffix, weight) k) +
              (rest.map (fun s => key_contribution s k)).sum) := by
      intro fac hfac hrest
      rw [ih _ r hrest hndr k]
      rw [dictGet_foldl_add (fun p : String × Freq => p.1 ++ suffix)
        (fun p : String × Freq => p.2 * fac) k]
      rw [contribution_eq wl suffix fac hnds k]
      unfold key_contribution
      rw [hfac]
      ring
    cases weight with
    | none =>
      unfold merge_step at h
      simp only [except_pure, except_bind_ok] at h
      rw [List.map_cons, List.sum_cons]
      exact hstep 1 (by unfold spec_factor; rfl) h
    | some w =>
      unfold merge_step at h
      by_cases hlen : wl.worddict = []
      · have hlen0 : ¬wl.worddict.length > 0 := by simp [hlen]
        simp only [hlen0, if_false, except_pure, except_bind_ok] at h
        rw [List.map_cons, List.sum_cons]
        exact hstep 1 (by unfold spec_factor; simp [hlen]) h
      · have hlen0 : wl.worddict.length > 0 := by
          cases hw : wl.worddict with
          | nil => exact absurd hw hlen
          | cons a l => simp [hw]
        have hmax := max_freq_ok wl hlen
        by_cases hm : maxVal wl = 0
        · simp only [hlen0, if_true, hmax, hm, if_pos rfl,
            except_bind_error] at h
          exact Except.noConfusion h
        · simp only [hlen0, if_true, hmax, if_neg hm, except_pure,
            except_bind_ok] at h
          rw [List.map_cons, List.sum_cons]
          exact hstep (w / maxVal wl)
            (by unfold spec_factor; simp [hlen]) h

/-- C2: whenever `merge_lists` succeeds on specs whose source tables have
unique keys, the output value at every key `k` is the sum over the specs of
`spec_factor * (sum of source frequencies mapping to k after suffixing)`
(summing collisions across specs and within one source); and on the two
concrete one-word tables of the spec's example the result is exactly
`{"x_a": 100, "y_b": 50}`. -/
theorem C2_merge_scaling :
    (∀ (specs : List (Wordlist × String × Option Freq)) (t : Wordlist),
        (∀ s ∈ specs, (s.1.worddict.map Prod.fst).Nodup) →
        merge_lists specs = Except.ok t →
        ∀ k, dictGet t.worddict k 0 =
          (specs.map (fun s => key_contribution s k)).sum) ∧
      merge_lists [(Wordlist.mk [("x", 5)], "_a", some 100),
          (Wordlist.mk [("y", 10)], "_b", some 50)] =
        Except.ok (Wordlist.mk [("x_a", 100), ("y_b", 50)]) := by
  constructor
  · intro specs t hnd h k
    unfold merge_lists at h
    cases hf : specs.foldlM merge_step ([] : List (String × Freq)) with
    | error e =>
      rw [hf] at h
      simp only [except_bind_error] at h
      exact Except.noConfusion h
    | ok d =>
      rw [hf] at h
      simp only [except_bind_ok, except_pure, Except.ok.injEq] at h
      subst h
      have := merge_step_foldlM_char specs [] d hf hnd k
      simpa [dictGet] using this
  · simp +decide [merge_lists, merge_step, List.foldlM, Wordlist.iteritems,
      Wordlist.sorted_words, Wordlist.max_freq, sortRel, except_bind_ok,
      except_pure, dictAdd, dictSet, dictGet]
    norm_num
    decide

/-- C2 witness: instantiating the characterisation on the example gives the
two expected entries. -/
theorem C2_merge_scaling_witness :
    dictGet (Wordlist.mk [("x_a", (100 : Freq)), ("y_b", 50)]).worddict
        "x_a" 0 =
      ([(Wordlist.mk [("x", (5 : Freq))], "_a", some (100 : Freq)),
          (Wordlist.mk [("y", 10)], "_b", some 50)].map
        (fun s => key_contribution s "x_a")).sum :=
  C2_merge_scaling.1
    [(Wordlist.mk [("x", 5)], "_a", some 100),
      (Wordlist.mk [("y", 10)], "_b", some 50)]
    (Wordlist.mk [("x_a", 100), ("y_b", 50)])
    (by intro s hs; simp at hs; rcases hs with h | h <;> simp [h])
    C2_merge_scaling.2 "x_a"

/-! ### C4 -/

theorem charsLt_trans :
    ∀ x y z : List Char, charsLt x y = true → charsLt y z = true →
      charsLt x z = true := by
  intro x
  induction x with
  | nil =>
    intro y z hxy hyz
    cases y with
    | nil => exact hyz
    | cons d ds =>
      cases z with
      | nil => simp [charsLt] at hyz
      | cons e es => rfl
  | cons c cs ih =>
    intro y z hxy hyz
    cases y with
    | nil => simp [charsLt] at hxy
    | cons d ds =>
      cases z with
      | nil => simp [charsLt] at hyz
      | cons e es =>
        unfold charsLt at hxy hyz ⊢
        by_cases hcd : c < d
        · by_cases hde : d < e
          · simp [lt_trans hcd hde]
          · by_cases hed : e < d
            · simp [hde, hed] at hyz
            · have : d = e := le_antisymm (not_lt.mp hed) (not_lt.mp hde)
              subst this
              simp [hcd]
        · by_cases hdc : d < c
          · simp [hcd, hdc] at hxy
          · have : c = d := le_antisymm (not_lt.mp hdc) (not_lt.mp hcd)
            subst this
            by_cases hde : c < e
            · simp [hde]
            · by_cases hed : e < c
              · simp [hde, hed] at hyz
              · have : c = e := le_antisymm (not_lt.mp hed) (not_lt.mp hde)
                subst this
                simp [hde, hed] at hxy hyz ⊢
                exact ih _ _ (by simpa [charsLt] using hxy)
                  (by simpa [charsLt] using hyz)

theorem charsLt_asymm :
    ∀ x y : List Char, charsLt x y = true → charsLt y x = false := by
  intro x
  induction x with
  | nil =>
    intro y hxy
    cases y with
    | nil => simp [charsLt] at hxy
    | cons d ds => rfl
  | cons c cs ih =>
    intro y hxy
    cases y with
    | nil => simp [charsLt] at hxy
    | cons d ds =>
      unfold charsLt at hxy ⊢
      by_cases hcd : c < d
      · have hdc : ¬d < c := lt_asymm hcd
        simp [hcd, hdc]
      · by_cases hdc : d < c
        · simp [hcd, hdc] at hxy
        · simp [hcd, hdc] at hxy ⊢
          exact ih _ hxy

theorem charsLt_conn :
    ∀ x y : List Char, charsLt x y = false → charsLt y x = false →
      x = y := by
  intro x
  induction x with
  | nil =>
    intro y hxy _
    cases y with
    | nil => rfl
    | cons d ds => simp [charsLt] at hxy
  | cons c cs ih =>
    intro y hxy hyx
    cases y with
    | nil => simp [charsLt] at hyx
    | cons d ds =>
      unfold charsLt at hxy hyx
      by_cases hcd : c < d
      · simp [hcd] at hxy
      · by_cases hdc : d < c
        · simp [hcd, hdc] at hyx
        · have : c = d := le_antisymm (not_lt.mp hdc) (not_lt.mp hcd)
          subst this
          simp [hcd, hdc] at hxy hyx
          rw [ih _ hxy hyx]

theorem string_eq_of_data_eq {a b : String} (h : a.data = b.data) :
    a = b := congrArg String.mk h

theorem pyLe_total (a b : String) : pyLe a b = true ∨ pyLe b a = true := by
  unfold pyLe pyLt
  cases hba : charsLt b.data a.data with
  | false => left; rfl
  | true =>
    right
    rw [charsLt_asymm _ _ hba]
    rfl

theorem pyLe_trans {a b c : String} (hab : pyLe a b = true)
    (hbc : pyLe b c = true) : pyLe a c = true := by
  unfold pyLe pyLt at hab hbc ⊢
  rw [Bool.not_eq_eq_eq_not, Bool.not_true] at hab hbc ⊢
  by_cases hca : charsLt c.data a.data = true
  · by_cases hab2 : charsLt a.data b.data = true
    · rw [charsLt_trans _ _ _ hca hab2] at hbc
      exact absurd hbc (by simp)
    · have : a.data = b.data :=
        charsLt_conn _ _ (bool_eq_false hab2) hab
      rw [← this] at hbc
      exact absurd hca (by simp [hbc])
  · exact bool_eq_false hca

theorem pyLt_of_pyLe_of_ne {a b : String} (h : pyLe a b = true)
    (hne : a ≠ b) : pyLt a b = true := by
  unfold pyLe at h
  unfold pyLt at h ⊢
  rw [Bool.not_eq_eq_eq_not, Bool.not_true] at h
  cases hab : charsLt a.data b.data with
  | true => rfl
  | false => exact absurd (string_eq_of_data_eq (charsLt_conn _ _ hab h)) hne

theorem sortRel_total (t : Wordlist) (a b : String) :
    sortRel t a b ∨ sortRel t b a := by
  rcases lt_trichotomy (t.get a 0) (t.get b 0) with h | h | h
  · right; left; exact h
  · rcases pyLe_total a b with hle | hle
    · left; right; exact ⟨h, hle⟩
    · right; right; exact ⟨h.symm, hle⟩
  · left; left; exact h

theorem sortRel_trans (t : Wordlist) (a b c : String)
    (hab : sortRel t a b) (hbc : sortRel t b c) : sortRel t a c := by
  rcases hab with h1 | ⟨h1, h1'⟩
  · rcases hbc with h2 | ⟨h2, h2'⟩
    · left; exact lt_trans h2 h1
    · left; rw [← h2]; exact h1
  · rcases hbc with h2 | ⟨h2, h2'⟩
    · left; rw [h1]; exact h2
    · right; exact ⟨h1.trans h2, pyLe_trans h1' h2'⟩

/-- C4: for a table with unique keys, `words()` is a permutation of the key
set, ordered by strictly descending frequency with ties broken by strictly
ascending string order, and `items()` yields exactly the `(word, frequency)`
pairs in that order. -/
theorem C4_sorted_words_order (t : Wordlist)
    (hnd : (t.worddict.map Prod.fst).Nodup) (_hne : t.worddict ≠ []) :
    t.words.Perm (t.worddict.map Prod.fst) ∧
      t.words.Pairwise (fun a b =>
        t.get b 0 < t.get a 0 ∨
          (t.get a 0 = t.get b 0 ∧ pyLt a b = true)) ∧
      t.iteritems = t.words.map (fun w => (w, dictGet t.worddict w 0)) := by
  haveI : IsTotal String (sortRel t) := ⟨sortRel_total t⟩
  haveI : IsTrans String (sortRel t) := ⟨sortRel_trans t⟩
  have hperm : t.words.Perm (t.worddict.map Prod.fst) :=
    List.perm_insertionSort (sortRel t) (t.worddict.map Prod.fst)
  have hsorted : t.words.Pairwise (sortRel t) :=
    List.sorted_insertionSort (sortRel t) (t.worddict.map Prod.fst)
  have hnodup : t.words.Nodup := hperm.nodup_iff.mpr hnd
  refine ⟨hperm, ?_, rfl⟩
  have hboth := hsorted.and hnodup
  exact hboth.imp (fun {a b} h => by
    rcases h.1 with h1 | ⟨h1, h1'⟩
    · left; exact h1
    · right; exact ⟨h1, pyLt_of_pyLe_of_ne h1' h.2⟩)

/-- C4 witness: a three-word table with a frequency tie sorts as expected
and `items()` follows the same order. -/
theorem C4_sorted_words_order_witness :
    (Wordlist.mk [("of", (50 : Freq)), ("the", 100), ("ab", 50)]).words.Perm
        ((Wordlist.mk [("of", (50 : Freq)), ("the", 100),
          ("ab", 50)]).worddict.map Prod.fst) ∧
      (Wordlist.mk [("of", (50 : Freq)), ("the", 100),
          ("ab", 50)]).words.Pairwise (fun a b =>
        (Wordlist.mk [("of", (50 : Freq)), ("the", 100),
            ("ab", 50)]).get b 0 <
            (Wordlist.mk [("of", (50 : Freq)), ("the", 100),
              ("ab", 50)]).get a 0 ∨
          ((Wordlist.mk [("of", (50 : Freq)), ("the", 100),
              ("ab", 50)]).get a 0 =
              (Wordlist.mk [("of", (50 : Freq)), ("the", 100),
                ("ab", 50)]).get b 0 ∧
            pyLt a b = true)) ∧
      (Wordlist.mk [("of", (50 : Freq)), ("the", 100),
          ("ab", 50)]).iteritems =
        (Wordlist.mk [("of", (50 : Freq)), ("the", 100),
          ("ab", 50)]).words.map (fun w =>
            (w, dictGet (Wordlist.mk [("of", (50 : Freq)), ("the", 100),
              ("ab", 50)]).worddict w 0)) :=
  C4_sorted_words_order
    (Wordlist.mk [("of", (50 : Freq)), ("the", 100), ("ab", 50)])
    (by decide) (by decide)

/-! ### C9 -/

theorem lookup_mem {d : List (String × Freq)} {w : String} {q : Freq}
    (h : List.lookup w d = some q) : (w, q) ∈ d := by
  induction d with
  | nil => simp at h
  | cons p rest ih =>
    obtain ⟨k, b⟩ := p
    rw [lookup_cons_ite] at h
    by_cases hw : w = k
    · rw [if_pos hw] at h
      obtain rfl : b = q := by cases h; rfl
      subst hw
      exact List.mem_cons_self _ _
    · rw [if_neg hw] at h
      exact List.mem_cons_of_mem _ (ih h)

theorem dictGet_nonneg (d : List (String × Freq)) (w : String)
    (hd : ∀ p ∈ d, 0 ≤ p.2) : 0 ≤ dictGet d w 0 := by
  rw [dictGet_eq]
  cases hl : List.lookup w d with
  | none => simp
  | some q => simpa using hd (w, q) (lookup_mem hl)

theorem mem_dictSet {d : List (String × Freq)} {w : String} {v : Freq}
    {p : String × Freq} (h : p ∈ dictSet d w v) :
    p ∈ d ∨ p = (w, v) := by
  unfold dictSet at h
  by_cases hany : d.any (fun p => p.1 = w)
  · rw [if_pos hany] at h
    obtain ⟨q, hq, hqe⟩ := List.mem_map.mp h
    by_cases hq1 : q.1 = w
    · right
      rw [if_pos hq1] at hqe
      exact hqe.symm
    · left
      rw [if_neg hq1] at hqe
      exact hqe ▸ hq
  · rw [if_neg hany] at h
    rcases List.mem_append.mp h with h | h
    · exact Or.inl h
    · right
      simpa using h

theorem vals_dictSet_nonneg (d : List (String × Freq)) (w : String)
    (v : Freq) (hd : ∀ p ∈ d, 0 ≤ p.2) (hv : 0 ≤ v) :
    ∀ p ∈ dictSet d w v, 0 ≤ p.2 := by
  intro p hp
  rcases mem_dictSet hp with h | h
  · exact hd p h
  · rw [h]
    exact hv

theorem vals_dictAdd_nonneg (d : List (String × Freq)) (w : String)
    (v : Freq) (hd : ∀ p ∈ d, 0 ≤ p.2) (hv : 0 ≤ v) :
    ∀ p ∈ dictAdd d w v, 0 ≤ p.2 := by
  unfold dictAdd
  exact vals_dictSet_nonneg d w _ hd
    (add_nonneg (dictGet_nonneg d w hd) hv)

theorem vals_foldl_set_nonneg :
    ∀ (pairs : List (String × Freq)) (d0 : List (String × Freq)),
      (∀ p ∈ pairs, 0 ≤ p.2) → (∀ p ∈ d0, 0 ≤ p.2) →
      ∀ p ∈ pairs.foldl (fun d b => dictSet d b.1 b.2) d0, 0 ≤ p.2 := by
  intro pairs
  induction pairs with
  | nil => intro d0 _ hd0; simpa using hd0
  | cons a l ih =>
    intro d0 hp hd0
    rw [List.foldl_cons]
    exact ih _ (fun p h => hp p (List.mem_cons_of_mem _ h))
      (vals_dictSet_nonneg d0 a.1 a.2 hd0 (hp a (List.mem_cons_self _ _)))

theorem vals_foldl_add_nonneg {α : Type} (g : α → String) (h : α → Freq) :
    ∀ (l : List α) (d0 : List (String × Freq)),
      (∀ a ∈ l, 0 ≤ h a) → (∀ p ∈ d0, 0 ≤ p.2) →
      ∀ p ∈ l.foldl (fun d a => dictAdd d (g a) (h a)) d0, 0 ≤ p.2 := by
  intro l
  induction l with
  | nil => intro d0 _ hd0; simpa using hd0
  | cons a l ih =>
    intro d0 hl hd0
    rw [List.foldl_cons]
    exact ih _ (fun x hx => hl x (List.mem_cons_of_mem _ hx))
      (vals_dictAdd_nonneg d0 (g a) (h a) hd0 (hl a (List.mem_cons_self _ _)))

theorem mapM_mem {α β : Type} (f : α → Except Err β) :
    ∀ (l : List α) (bs : List β), l.mapM f = Except.ok bs →
      ∀ b ∈ bs, ∃ a ∈ l, f a = Except.ok b := by
  intro l
  induction l with
  | nil =>
    intro bs h b hb
    obtain rfl : ([] : List β) = bs := by cases h; rfl
    simp at hb
  | cons a l ih =>
    intro bs h b hb
    rw [List.mapM_cons] at h
    cases hfa : f a with
    | error e =>
      rw [hfa] at h
      simp only [except_bind_error] at h
      exact Except.noConfusion h
    | ok b0 =>
      rw [hfa] at h
      simp only [except_bind_ok] at h
      cases hml : l.mapM f with
      | error e =>
        rw [hml] at h
        simp only [except_bind_error] at h
        exact Except.noConfusion h
      | ok bs0 =>
        rw [hml] at h
        simp only [except_bind_ok, except_pure, Except.ok.injEq] at h
        subst h
        rcases List.mem_cons.mp hb with rfl | hb2
        · exact ⟨a, List.mem_cons_self _ _, hfa⟩
        · obtain ⟨a1, ha1, hfa1⟩ := ih bs0 hml b hb2
          exact ⟨a1, List.mem_cons_of_mem _ ha1, hfa1⟩

theorem le_foldl_max :
    ∀ (vs : List Freq) (v : Freq), v ≤ vs.foldl max v := by
  intro vs
  induction vs with
  | nil => intro v; simp
  | cons a l ih =>
    intro v
    rw [List.foldl_cons]
    exact le_trans (le_max_left v a) (ih (max v a))

theorem maxVal_nonneg (t : Wordlist) (ht : t.worddict ≠ [])
    (hv : ∀ p ∈ t.worddict, 0 ≤ p.2) : 0 ≤ maxVal t := by
  unfold maxVal
  cases hm : t.worddict.map Prod.snd with
  | nil => exact absurd (List.map_eq_nil_iff.mp hm) ht
  | cons v vs =>
    have hvmem : v ∈ t.worddict.map Prod.snd := by rw [hm]; simp
    obtain ⟨p, hp, hpv⟩ := List.mem_map.mp hvmem
    exact le_trans (hpv ▸ hv p hp) (le_foldl_max vs v)

/-- C9 counterexample: the canonical loader accepts a negative frequency
(`float("-1.0")`), producing a reachable table whose stored frequency is
negative. -/
theorem C9_counterexample :
    Wordlist.load_stream [("a,-1.0").data] =
        Except.ok (Wordlist.mk [("a", -1)]) ∧
      ¬(0 : Freq) ≤ -1 := by
  constructor
  · simp +decide [Wordlist.load_stream, parseCanonLine, parseDecimal?,
      rstrip, splitOnChar, digitsVal, digitVal, List.foldlM,
      except_bind_ok, except_pure, dictSet, dictGet]
  · norm_num

/-- C9 (amended): the constructors *preserve* non-negativity rather than
enforce it.  If every frequency a canonical (resp. foreign) stream parses
to is `≥ 0`, the loaded table's stored frequencies are all `≥ 0`; if every
source-table frequency and every scaling target of a merge is `≥ 0`, the
merged table's frequencies are all `≥ 0`. -/
theorem C9_amended_nonneg_preserved :
    (∀ (lines : List (List Char)) (t : Wordlist),
        Wordlist.load_stream lines = Except.ok t →
        (∀ l ∈ lines, ∀ w q, parseCanonLine l = Except.ok (w, q) → 0 ≤ q) →
        ∀ p ∈ t.worddict, 0 ≤ p.2) ∧
    (∀ (pp : String → String) (db2lin : Freq → Freq)
        (lines : List (List Char)) (t : Wordlist),
        Wordlist.load_new_stream pp db2lin lines = Except.ok t →
        (∀ l ∈ lines, ∀ mode w q,
          parseForeignLine db2lin mode l = Except.ok (w, q) → 0 ≤ q) →
        ∀ p ∈ t.worddict, 0 ≤ p.2) ∧
    (∀ (specs : List (Wordlist × String × Option Freq)) (t : Wordlist),
        merge_lists specs = Except.ok t →
        (∀ s ∈ specs, (∀ p ∈ s.1.worddict, 0 ≤ p.2) ∧
          (∀ w, s.2.2 = some w → 0 ≤ w)) →
        ∀ p ∈ t.worddict, 0 ≤ p.2) := by
  refine ⟨?_, ?_, ?_⟩
  · intro lines t hload hnn
    unfold Wordlist.load_stream at hload
    cases hf : lines.foldlM
        (fun d line => do
          let wf ← parseCanonLine line
          pure (dictSet d wf.1 wf.2))
        ([] : List (String × Freq)) with
    | error e =>
      rw [hf] at hload
      simp only [except_bind_error] at hload
      exact Except.noConfusion hload
    | ok d =>
      rw [hf] at hload
      simp only [except_bind_ok, except_pure, Except.ok.injEq] at hload
      subst hload
      obtain ⟨bs, hbs, hd⟩ := foldlM_except_eq_fold parseCanonLine
        (fun d b => dictSet d b.1 b.2) lines [] d hf
      rw [hd]
      apply vals_foldl_set_nonneg bs [] _ (by simp)
      intro p hp
      obtain ⟨l, hl, hfl⟩ := mapM_mem parseCanonLine lines bs hbs p hp
      exact hnn l hl p.1 p.2 (by rw [hfl])
  · intro pp db2lin lines t hload hnn
    cases lines with
    | nil =>
      unfold Wordlist.load_new_stream at hload
      obtain rfl : Wordlist.mk [] = t := by cases hload; rfl
      simp
    | cons l0 rest =>
      unfold Wordlist.load_new_stream at hload
      cases hdet : detectMode l0 with
      | error e =>
        simp only [hdet, except_bind_error] at hload
        exact Except.noConfusion hload
      | ok mode =>
        simp only [hdet, except_bind_ok] at hload
        cases hf : (l0 :: rest).foldlM
            (fun d line => do
              let wf ← parseForeignLine db2lin mode line
              pure (dictAdd d (pyLower (pp wf.1)) wf.2))
            ([] : List (String × Freq)) with
        | error e =>
          rw [hf] at hload
          simp only [except_bind_error] at hload
          exact Except.noConfusion hload
        | ok d =>
          rw [hf] at hload
          simp only [except_bind_ok, except_pure, Except.ok.injEq] at hload
          subst hload
          obtain ⟨bs, hbs, hd⟩ := foldlM_except_eq_fold
            (parseForeignLine db2lin mode)
            (fun d b => dictAdd d (pyLower (pp b.1)) b.2) (l0 :: rest) [] d hf
          rw [hd]
          apply vals_foldl_add_nonneg (fun b => pyLower (pp b.1)) Prod.snd
            bs [] _ (by simp)
          intro p hp
          obtain ⟨l, hl, hfl⟩ := mapM_mem (parseForeignLine db2lin mode)
            (l0 :: rest) bs hbs p hp
          exact hnn l hl mode p.1 p.2 (by rw [hfl])
  · intro specs t hload hnn
    unfold merge_lists at hload
    cases hf : specs.foldlM merge_step ([] : List (String × Freq)) with
    | error e =>
      rw [hf] at hload
      simp only [except_bind_error] at hload
      exact Except.noConfusion hload
    | ok d =>
      rw [hf] at hload
      simp only [except_bind_ok, except_pure, Except.ok.injEq] at hload
      subst hload
      suffices hgen : ∀ (sp : List (Wordlist × String × Option Freq))
          (t0 r : List (String × Freq)),
          sp.foldlM merge_step t0 = Except.ok r →
          (∀ s ∈ sp, (∀ p ∈ s.1.worddict, 0 ≤ p.2) ∧
            (∀ w, s.2.2 = some w → 0 ≤ w)) →
          (∀ p ∈ t0, 0 ≤ p.2) → ∀ p ∈ r, 0 ≤ p.2 by
        exact hgen specs [] d hf hnn (by simp)
      intro sp
      induction sp with
      | nil =>
        intro t0 r h _ ht0
        obtain rfl : t0 = r := by
          simpa [List.foldlM, except_pure] using h
        exact ht0
      | cons s rest ih =>
        intro t0 r h hs ht0
        rw [List.foldlM_cons] at h
        obtain ⟨wl, suffix, weight⟩ := s
        have hsw := hs (wl, suffix, weight) (List.mem_cons_self _ _)
        have hsr : ∀ s ∈ rest, (∀ p ∈ s.1.worddict, 0 ≤ p.2) ∧
            (∀ w, s.2.2 = some w → 0 ≤ w) :=
          fun s h2 => hs s (List.mem_cons_of_mem _ h2)
        have hstep : ∀ fac : Freq, 0 ≤ fac →
            rest.foldlM merge_step
              (wl.iteritems.foldl
                (fun acc p => dictAdd acc (p.1 ++ suffix) (p.2 * fac)) t0) =
              Except.ok r →
            ∀ p ∈ r, 0 ≤ p.2 := by
          intro fac hfac hrest
          apply ih _ r hrest hsr
          apply vals_foldl_add_nonneg
            (fun p : String × Freq => p.1 ++ suffix)
            (fun p : String × Freq => p.2 * fac) wl.iteritems t0 _ ht0
          intro p hp
          obtain ⟨w, _, hw⟩ := List.mem_map.mp hp
          have h2 : 0 ≤ p.2 := by
            rw [← hw]
            exact dictGet_nonneg wl.worddict w hsw.1
          exact mul_nonneg h2 hfac
        cases weight with
        | none =>
          unfold merge_step at h
          simp only [except_pure, except_bind_ok] at h
          exact hstep 1 (by norm_num) h
        | some w =>
          unfold merge_step at h
          by_cases hlen : wl.worddict = []
          · have hlen0 : ¬wl.worddict.length > 0 := by simp [hlen]
            simp only [hlen0, if_false, except_pure, except_bind_ok] at h
            exact hstep 1 (by norm_num) h
          · have hlen0 : wl.worddict.length > 0 := by
              cases hw : wl.worddict with
              | nil => exact absurd hw hlen
              | cons a l => simp [hw]
            have hmax := max_freq_ok wl hlen
            by_cases hm : maxVal wl = 0
            · simp only [hlen0, if_true, hmax, hm, if_pos rfl,
                except_bind_error] at h
              exact Except.noConfusion h
            · simp only [hlen0, if_true, hmax, if_neg hm, except_pure,
                except_bind_ok] at h
              have hw0 : 0 ≤ w := hsw.2 w rfl
              have hm0 : 0 ≤ maxVal wl := maxVal_nonneg wl hlen hsw.1
              exact hstep (w / maxVal wl) (div_nonneg hw0 hm0) h

/-- C9 amended witness: concrete instances of all three preservation
statements. -/
theorem C9_amended_nonneg_preserved_witness :
    (∀ p ∈ (Wordlist.mk [("a", (5 : Freq)/2)]).worddict, 0 ≤ p.2) ∧
      (∀ p ∈ (Wordlist.mk [("a", (7 : Freq)/2)]).worddict, 0 ≤ p.2) ∧
      (∀ p ∈ (Wordlist.mk [("x_a", (100 : Freq)), ("y_b", 50)]).worddict,
        0 ≤ p.2) := by
  have h1 : Wordlist.load_stream [("a,1.0").data, ("a,2.5").data] =
      Except.ok (Wordlist.mk [("a", (5 : Freq)/2)]) := by
    simp +decide [Wordlist.load_stream, parseCanonLine, parseDecimal?,
      rstrip, splitOnChar, digitsVal, digitVal, List.foldlM,
      except_bind_ok, except_pure, dictSet, dictGet]
    norm_num
  have h2 : Wordlist.load_new_stream id id
      [("A,1.0").data, ("a,2.5").data] =
      Except.ok (Wordlist.mk [("a", (7 : Freq)/2)]) := by
    simp +decide [Wordlist.load_new_stream, detectMode, parseForeignLine,
      parseCanonLine, parseDecimal?, rstrip, splitOnChar, digitsVal,
      digitVal, List.foldlM, except_bind_ok, except_pure, dictAdd, dictSet,
      dictGet, pyLower]
    norm_num
  refine ⟨C9_amended_nonneg_preserved.1 _ _ h1 ?_,
    C9_amended_nonneg_preserved.2.1 id id _ _ h2 ?_,
    C9_amended_nonneg_preserved.2.2 _ _ C2_merge_scaling.2 ?_⟩
  · intro l hl w q hp
    simp only [List.mem_cons, List.mem_singleton, List.not_mem_nil,
      or_false] at hl
    rcases hl with rfl | rfl <;>
      · simp +decide [parseCanonLine, parseDecimal?, rstrip, splitOnChar,
          digitsVal, digitVal] at hp
        obtain ⟨h1, h2⟩ := hp
        subst h2
        norm_num
  · intro l hl mode w q hp
    by_cases hm : mode = 1
    · subst hm
      simp only [List.mem_cons, List.mem_singleton, List.not_mem_nil,
        or_false] at hl
      rcases hl with rfl | rfl <;>
        · simp +decide [parseForeignLine, parseCanonLine, parseDecimal?,
            rstrip, splitOnChar, digitsVal, digitVal] at hp
          obtain ⟨h1, h2⟩ := hp
          subst h2
          norm_num
    · simp only [List.mem_cons, List.mem_singleton, List.not_mem_nil,
        or_false] at hl
      rcases hl with rfl | rfl <;>
        simp +decide [parseForeignLine, hm, rstrip, splitOnChar] at hp
  · intro s hs
    simp at hs
    rcases hs with h | h <;> (rw [h]; constructor)
    · intro p hp; simp at hp; rw [hp]; norm_num
    · intro w2 hw2; cases hw2; norm_num
    · intro p hp; simp at hp; rw [hp]; norm_num
    · intro w2 hw2; cases hw2; norm_num

/-! ### C7 -/

theorem digitChar_isDigit (n : Nat) : (digitChar n).isDigit = true := by
  unfold digitChar
  repeat' split
  all_goals decide

theorem digitChar_not_ws (n : Nat) : (digitChar n).isWhitespace = false := by
  unfold digitChar
  repeat' split
  all_goals decide

theorem digitChar_ne_comma (n : Nat) : digitChar n ≠ ',' := by
  unfold digitChar
  repeat' split
  all_goals decide

theorem digitChar_ne_nl (n : Nat) : digitChar n ≠ '\n' := by
  unfold digitChar
  repeat' split
  all_goals decide

theorem digitChar_ne_minus (n : Nat) : digitChar n ≠ '-' := by
  unfold digitChar
  repeat' split
  all_goals decide

theorem digitChar_ne_plus (n : Nat) : digitChar n ≠ '+' := by
  unfold digitChar
  repeat' split
  all_goals decide

theorem digitVal_digitChar (n : Nat) : digitVal (digitChar n) = n % 10 := by
  unfold digitChar
  repeat' split
  all_goals
    simp only [show digitVal '0' = 0 from rfl, show digitVal '1' = 1 from rfl,
      show digitVal '2' = 2 from rfl, show digitVal '3' = 3 from rfl,
      show digitVal '4' = 4 from rfl, show digitVal '5' = 5 from rfl,
      show digitVal '6' = 6 from rfl, show digitVal '7' = 7 from rfl,
      show digitVal '8' = 8 from rfl, show digitVal '9' = 9 from rfl]
  all_goals omega

theorem natToDigitsAux_mem (fuel n : Nat) :
    ∀ c ∈ natToDigitsAux fuel n, ∃ k, c = digitChar k := by
  induction fuel generalizing n with
  | zero =>
    intro c hc
    unfold natToDigitsAux at hc
    simp at hc
    exact ⟨n, hc⟩
  | succ fuel ih =>
    intro c hc
    unfold natToDigitsAux at hc
    by_cases h10 : n < 10
    · rw [if_pos h10] at hc
      simp at hc
      exact ⟨n, hc⟩
    · rw [if_neg h10] at hc
      rcases List.mem_append.mp hc with hc | hc
      · exact ih (n / 10) c hc
      · simp at hc
        exact ⟨n % 10, hc⟩

theorem digitsVal_append_singleton (a : List Char) (c : Char) :
    digitsVal (a ++ [c]) = digitsVal a * 10 + digitVal c := by
  unfold digitsVal
  rw [List.foldl_append]
  rfl

theorem digitsVal_natToDigitsAux :
    ∀ fuel n : Nat, n ≤ fuel + 9 →
      digitsVal (natToDigitsAux fuel n) = n := by
  intro fuel
  induction fuel with
  | zero =>
    intro n hn
    unfold natToDigitsAux digitsVal
    simp [digitVal_digitChar]
    omega
  | succ fuel ih =>
    intro n hn
    unfold natToDigitsAux
    by_cases h10 : n < 10
    · rw [if_pos h10]
      unfold digitsVal
      simp [digitVal_digitChar]
      omega
    · rw [if_neg h10]
      rw [digitsVal_append_singleton, ih (n / 10) (by omega),
        digitVal_digitChar]
      omega

theorem digitsVal_natToDigits (n : Nat) :
    digitsVal (natToDigits n) = n :=
  digitsVal_natToDigitsAux n n (by omega)

theorem splitOnChar_not_mem (c : Char) :
    ∀ cs : List Char, c ∉ cs → splitOnChar c cs = [cs] := by
  intro cs
  induction cs with
  | nil => intro _; rfl
  | cons x xs ih =>
    intro h
    have hx : ¬x = c := fun he => h (he ▸ List.mem_cons_self _ _)
    have hxs : c ∉ xs := fun hm => h (List.mem_cons_of_mem _ hm)
    unfold splitOnChar
    rw [if_neg hx, ih hxs]

theorem splitOnChar_append (c : Char) :
    ∀ (a b : List Char), c ∉ a →
      splitOnChar c (a ++ c :: b) = a :: splitOnChar c b := by
  intro a
  induction a with
  | nil =>
    intro b _
    show splitOnChar c (c :: b) = [] :: splitOnChar c b
    conv_lhs => rw [splitOnChar]
    rw [if_pos rfl]
  | cons x xs ih =>
    intro b h
    have hx : ¬x = c := fun he => h (he ▸ List.mem_cons_self _ _)
    have hxs : c ∉ xs := fun hm => h (List.mem_cons_of_mem _ hm)
    show splitOnChar c (x :: (xs ++ c :: b)) = (x :: xs) :: splitOnChar c b
    conv_lhs => rw [splitOnChar]
    rw [if_neg hx, ih b hxs]

theorem splitOnChar_flatten_lines (c : Char) :
    ∀ ls : List (List Char), (∀ l ∈ ls, c ∉ l) →
      splitOnChar c ((ls.map (fun l => l ++ [c])).flatten) = ls ++ [[]] := by
  intro ls
  induction ls with
  | nil => intro _; rfl
  | cons l ls ih =>
    intro h
    rw [List.map_cons, List.flatten_cons, List.append_assoc,
      List.singleton_append, splitOnChar_append c l _
        (h l (List.mem_cons_self _ _)),
      ih (fun x hx => h x (List.mem_cons_of_mem _ hx))]
    rfl

/-- `pyLines` undoes `save`'s line assembly when no line contains a
newline. -/
theorem pyLines_flatten (ls : List (List Char))
    (h : ∀ l ∈ ls, '\n' ∉ l) :
    pyLines ((ls.map (fun l => l ++ ['\n'])).flatten) = ls := by
  unfold pyLines
  rw [splitOnChar_flatten_lines '\n' ls h]
  simp [List.getLast?_concat, List.dropLast_concat]

theorem rstrip_append_singleton (cs : List Char) (c : Char)
    (h : c.isWhitespace = false) : rstrip (cs ++ [c]) = cs ++ [c] := by
  unfold rstrip
  rw [List.reverse_append]
  show ((([c] : List Char) ++ cs.reverse).dropWhile Char.isWhitespace).reverse
    = cs ++ [c]
  rw [List.singleton_append, List.dropWhile_cons_of_neg (by simp [h])]
  simp

theorem dropWhile_not_head {p : Char → Bool} :
    ∀ (cs : List Char), (cs ≠ [] → p (cs.headI) = false) →
      cs.dropWhile p = cs := by
  intro cs h
  cases cs with
  | nil => rfl
  | cons x xs =>
    have hx : p (x :: xs).headI = false := h (by simp)
    simp only [List.headI] at hx
    rw [List.dropWhile_cons_of_neg (by simp [hx])]

theorem takeWhile_all_append (p : Char → Bool) :
    ∀ (l1 : List Char) (c0 : Char) (l2 : List Char),
      (∀ x ∈ l1, p x = true) → p c0 = false →
      (l1 ++ c0 :: l2).takeWhile p = l1 ∧
        (l1 ++ c0 :: l2).dropWhile p = c0 :: l2 := by
  intro l1
  induction l1 with
  | nil =>
    intro c0 l2 _ hc0
    constructor
    · rw [List.nil_append, List.takeWhile_cons_of_neg (by simp [hc0])]
    · rw [List.nil_append, List.dropWhile_cons_of_neg (by simp [hc0])]
  | cons x xs ih =>
    intro c0 l2 hall hc0
    have hx : p x = true := hall x (List.mem_cons_self _ _)
    have hxs := ih c0 l2 (fun y hy => hall y (List.mem_cons_of_mem _ hy)) hc0
    constructor
    · rw [List.cons_append, List.takeWhile_cons_of_pos (by simp [hx]),
        hxs.1]
    · rw [List.cons_append, List.dropWhile_cons_of_pos (by simp [hx]),
        hxs.2]

theorem natToDigitsAux_shape (fuel n : Nat) :
    ∃ k rest, natToDigitsAux fuel n = digitChar k :: rest := by
  cases fuel with
  | zero => exact ⟨n, [], rfl⟩
  | succ fuel =>
    unfold natToDigitsAux
    by_cases h10 : n < 10
    · rw [if_pos h10]
      exact ⟨n, [], rfl⟩
    · rw [if_neg h10]
      obtain ⟨k, rest, hk⟩ := natToDigitsAux_shape fuel (n / 10)
      exact ⟨k, rest ++ [digitChar (n % 10)], by rw [hk]; rfl⟩

theorem digitsVal_singleton (c : Char) : digitsVal [c] = digitVal c := by
  unfold digitsVal
  simp

/-- The unsigned part of a formatted value parses back to `m / 10` as a
rational: `takeWhile`/`dropWhile` isolate the integer digits, the dot and
the final digit. -/
theorem parse_body (m : Nat) :
    (natToDigits (m / 10) ++ ('.' :: [digitChar (m % 10)])).takeWhile
        Char.isDigit = natToDigits (m / 10) ∧
      (natToDigits (m / 10) ++ ('.' :: [digitChar (m % 10)])).dropWhile
        Char.isDigit = '.' :: [digitChar (m % 10)] := by
  apply takeWhile_all_append
  · intro c hc
    obtain ⟨k, hk⟩ := natToDigitsAux_mem (m / 10) (m / 10) c hc
    rw [hk]
    exact digitChar_isDigit k
  · decide

/-- `parseDecimal?` inverts `formatTenth`, exactly recovering the rounded
value `roundHalfEven (10 q) / 10`. -/
theorem parse_formatTenth (q : Freq) :
    parseDecimal? (formatTenth q) =
      some ((roundHalfEven (10 * q) : ℚ) / 10) := by
  unfold formatTenth
  generalize roundHalfEven (10 * q) = n
  set m : Nat := n.natAbs with hm
  obtain ⟨k0, rest0, hshape⟩ := natToDigitsAux_shape (m / 10) (m / 10)
  have hshape2 : natToDigits (m / 10) = digitChar k0 :: rest0 := hshape
  have hb := parse_body m
  have hdm : ((m / 10 : ℕ) : ℚ) * 10 + ((m % 10 : ℕ) : ℚ) = (m : ℚ) := by
    have h0 := congrArg (Nat.cast : ℕ → ℚ) (Nat.div_add_mod m 10)
    push_cast at h0
    linarith
  have hvald : digitsVal [digitChar (m % 10)] = m % 10 := by
    rw [digitsVal_singleton, digitVal_digitChar]
    omega
  by_cases hneg : n < 0
  · rw [if_pos hneg]
    have hstr : ['-'] ++ natToDigits (m / 10) ++ ['.'] ++ [digitChar (m % 10)]
        = '-' :: (natToDigits (m / 10) ++ ('.' :: [digitChar (m % 10)])) := by
      simp
    rw [hstr]
    have hdw : ('-' :: (natToDigits (m / 10) ++
        ('.' :: [digitChar (m % 10)]))).dropWhile Char.isWhitespace =
        '-' :: (natToDigits (m / 10) ++ ('.' :: [digitChar (m % 10)])) := by
      rw [List.dropWhile_cons_of_neg]
      decide
    have hform : '-' :: (natToDigits (m / 10) ++
        ('.' :: [digitChar (m % 10)])) =
        ('-' :: (natToDigits (m / 10) ++ ['.'])) ++ [digitChar (m % 10)] := by
      simp
    have hrs : rstrip ('-' :: (natToDigits (m / 10) ++
        ('.' :: [digitChar (m % 10)]))) =
        '-' :: (natToDigits (m / 10) ++ ('.' :: [digitChar (m % 10)])) := by
      rw [hform, rstrip_append_singleton _ _ (digitChar_not_ws _), ← hform]
    unfold parseDecimal?
    simp only [hdw, hrs, List.headI, List.tail_cons, true_or, if_true]
    simp only [hb.1, hb.2]
    rw [if_neg (by simp)]
    rw [if_pos ⟨trivial, by simp [digitChar_isDigit], by simp [hshape2]⟩]
    simp only [List.tail_cons, hvald, digitsVal_natToDigits,
      List.length_singleton]
    have h1 : ((m : ℕ) : ℚ) = -(n : ℚ) := by
      have h2 : ((m : ℕ) : ℤ) = -n := Int.ofNat_natAbs_of_nonpos
        (le_of_lt hneg)
      exact_mod_cast congrArg (Int.cast : ℤ → ℚ) h2
    have h3 : (n : ℚ) = -(((m / 10 : ℕ) : ℚ) * 10 + ((m % 10 : ℕ) : ℚ)) := by
      rw [hdm, h1]
      ring
    rw [h3]
    norm_num
    ring
  · rw [if_neg hneg]
    have hstr : ([] : List Char) ++ natToDigits (m / 10) ++ ['.'] ++
        [digitChar (m % 10)]
        = natToDigits (m / 10) ++ ('.' :: [digitChar (m % 10)]) := by
      simp
    rw [hstr]
    have hdw : ((natToDigits (m / 10) ++
        ('.' :: [digitChar (m % 10)]))).dropWhile Char.isWhitespace =
        natToDigits (m / 10) ++ ('.' :: [digitChar (m % 10)]) := by
      rw [hshape2, List.cons_append, List.dropWhile_cons_of_neg]
      rw [digitChar_not_ws]
      simp
    have hform : natToDigits (m / 10) ++ ('.' :: [digitChar (m % 10)]) =
        (natToDigits (m / 10) ++ ['.']) ++ [digitChar (m % 10)] := by
      simp
    have hrs : rstrip (natToDigits (m / 10) ++
        ('.' :: [digitChar (m % 10)])) =
        natToDigits (m / 10) ++ ('.' :: [digitChar (m % 10)]) := by
      rw [hform, rstrip_append_singleton _ _ (digitChar_not_ws _), ← hform]
    have hhead : (natToDigits (m / 10) ++
        ('.' :: [digitChar (m % 10)])).headI = digitChar k0 := by
      rw [hshape2]
      rfl
    unfold parseDecimal?
    simp only [hdw, hrs, hhead]
    rw [if_neg (digitChar_ne_minus k0)]
    have hsign2 : ¬(digitChar k0 = '-' ∨ digitChar k0 = '+') :=
      fun hc => hc.elim (digitChar_ne_minus k0) (digitChar_ne_plus k0)
    rw [if_neg hsign2]
    simp only [hb.1, hb.2, List.headI, List.tail_cons, true_or, if_true]
    rw [if_neg (by simp)]
    rw [if_pos ⟨trivial, by simp [digitChar_isDigit], by simp [hshape2]⟩]
    simp only [List.tail_cons, hvald, digitsVal_natToDigits,
      List.length_singleton]
    have h1 : ((m : ℕ) : ℚ) = (n : ℚ) := by
      have h2 : ((m : ℕ) : ℤ) = n := Int.natAbs_of_nonneg (not_lt.mp hneg)
      exact_mod_cast congrArg (Int.cast : ℤ → ℚ) h2
    have h3 : (n : ℚ) = ((m / 10 : ℕ) : ℚ) * 10 + ((m % 10 : ℕ) : ℚ) := by
      rw [hdm, h1]
    rw [h3]
    norm_num
    ring

/-- Rounding half-to-even moves a value by at most `1/2`. -/
theorem roundHalfEven_bound (x : ℚ) : |(roundHalfEven x : ℚ) - x| ≤ 1 / 2 := by
  unfold roundHalfEven
  have hfl : (⌊x⌋ : ℚ) ≤ x := Int.floor_le x
  have hfu : x < (⌊x⌋ : ℚ) + 1 := Int.lt_floor_add_one x
  by_cases h1 : x - (⌊x⌋ : ℚ) < 1 / 2
  · rw [if_pos h1, abs_le]
    constructor <;> linarith
  · rw [if_neg h1]
    by_cases h2 : 1 / 2 < x - (⌊x⌋ : ℚ)
    · rw [if_pos h2, abs_le]
      push_cast
      constructor <;> linarith
    · rw [if_neg h2]
      have hhalf : x - (⌊x⌋ : ℚ) = 1 / 2 := le_antisymm (not_lt.mp h2)
        (not_lt.mp h1)
      by_cases h3 : ⌊x⌋ % 2 = 0
      · rw [if_pos h3, abs_le]
        constructor <;> linarith
      · rw [if_neg h3, abs_le]
        push_cast
        constructor <;> linarith

/-- The value written by `formatTenth` differs from the original by at most
`0.05`. -/
theorem formatTenth_value_bound (q : Freq) :
    |((roundHalfEven (10 * q) : ℤ) : ℚ) / 10 - q| ≤ 1 / 20 := by
  have h := roundHalfEven_bound (10 * q)
  have h2 : ((roundHalfEven (10 * q) : ℤ) : ℚ) / 10 - q =
      (((roundHalfEven (10 * q) : ℤ) : ℚ) - 10 * q) / 10 := by
    ring
  rw [h2, abs_div]
  rw [show |(10 : ℚ)| = 10 from by norm_num]
  linarith [h]

theorem formatTenth_mem (q : Freq) :
    ∀ c ∈ formatTenth q, c = '-' ∨ c = '.' ∨ ∃ k, c = digitChar k := by
  intro c hc
  unfold formatTenth at hc
  rcases List.mem_append.mp hc with hc | hc
  · rcases List.mem_append.mp hc with hc | hc
    · rcases List.mem_append.mp hc with hc | hc
      · by_cases hneg : roundHalfEven (10 * q) < 0
        · rw [if_pos hneg] at hc
          simp at hc
          exact Or.inl hc
        · rw [if_neg hneg] at hc
          simp at hc
      · right; right
        exact natToDigitsAux_mem _ _ c hc
    · simp at hc
      exact Or.inr (Or.inl hc)
  · simp at hc
    exact Or.inr (Or.inr ⟨_, hc⟩)

theorem formatTenth_no_comma (q : Freq) : ',' ∉ formatTenth q := by
  intro hc
  rcases formatTenth_mem q ',' hc with h | h | ⟨k, h⟩
  · exact absurd h (by decide)
  · exact absurd h (by decide)
  · exact absurd h.symm (digitChar_ne_comma k)

theorem formatTenth_no_nl (q : Freq) : '\n' ∉ formatTenth q := by
  intro hc
  rcases formatTenth_mem q '\n' hc with h | h | ⟨k, h⟩
  · exact absurd h (by decide)
  · exact absurd h (by decide)
  · exact absurd h.symm (digitChar_ne_nl k)

/-- `formatTenth` always ends in a digit character. -/
theorem formatTenth_concat (q : Freq) :
    formatTenth q =
      ((if roundHalfEven (10 * q) < 0 then ['-'] else []) ++
        natToDigits ((roundHalfEven (10 * q)).natAbs / 10) ++ ['.']) ++
        [digitChar ((roundHalfEven (10 * q)).natAbs % 10)] := by
  unfold formatTenth
  simp [List.append_assoc]

/-- A saved line parses back to the word and the rounded value. -/
theorem parseCanonLine_saved (w : String) (q : Freq)
    (hw : ',' ∉ w.data) :
    parseCanonLine (w.data ++ [','] ++ formatTenth q) =
      Except.ok (w, ((roundHalfEven (10 * q) : ℤ) : ℚ) / 10) := by
  have hline : w.data ++ [','] ++ formatTenth q =
      (w.data ++ [','] ++ ((if roundHalfEven (10 * q) < 0 then ['-']
        else []) ++ natToDigits ((roundHalfEven (10 * q)).natAbs / 10) ++
        ['.'])) ++ [digitChar ((roundHalfEven (10 * q)).natAbs % 10)] := by
    rw [formatTenth_concat]
    simp [List.append_assoc]
  have hrs : rstrip (w.data ++ [','] ++ formatTenth q) =
      w.data ++ [','] ++ formatTenth q := by
    rw [hline, rstrip_append_singleton _ _ (digitChar_not_ws _), ← hline]
  have hsplit : splitOnChar ',' (w.data ++ [','] ++ formatTenth q) =
      [w.data, formatTenth q] := by
    rw [List.append_assoc, List.singleton_append,
      splitOnChar_append ',' w.data _ hw,
      splitOnChar_not_mem ',' _ (formatTenth_no_comma q)]
  unfold parseCanonLine
  rw [hrs, hsplit]
  simp only [parse_formatTenth]

theorem mapM_map_ok {α β γ : Type} (f : β → Except Err γ) (gg : α → β)
    (hh : α → γ) :
    ∀ l : List α, (∀ a ∈ l, f (gg a) = Except.ok (hh a)) →
      (l.map gg).mapM f = Except.ok (l.map hh) := by
  intro l
  induction l with
  | nil => intro _; rfl
  | cons a l ih =>
    intro h
    rw [List.map_cons, List.mapM_cons, h a (List.mem_cons_self _ _)]
    have ihh := ih (fun x hx => h x (List.mem_cons_of_mem _ hx))
    have ihh2 : List.mapM.loop f (List.map gg l) [] =
        Except.ok (List.map hh l) := ihh
    simp [except_bind_ok, ihh, ihh2, except_pure]

theorem foldlM_except_of_mapM {α β δ : Type} (f : α → Except Err β)
    (upd : δ → β → δ) :
    ∀ (l : List α) (d0 : δ) (bs : List β),
      l.mapM f = Except.ok bs →
      l.foldlM (fun d a => do
        let b ← f a
        pure (upd d b)) d0 = Except.ok (bs.foldl upd d0) := by
  intro l
  induction l with
  | nil =>
    intro d0 bs h
    obtain rfl : ([] : List β) = bs := by cases h; rfl
    rfl
  | cons a l ih =>
    intro d0 bs h
    rw [List.mapM_cons] at h
    cases hfa : f a with
    | error e =>
      rw [hfa] at h
      simp only [except_bind_error] at h
      exact Except.noConfusion h
    | ok b =>
      rw [hfa] at h
      simp only [except_bind_ok] at h
      cases hml : l.mapM f with
      | error e =>
        rw [hml] at h
        simp only [except_bind_error] at h
        exact Except.noConfusion h
      | ok bs0 =>
        rw [hml] at h
        simp only [except_bind_ok, except_pure, Except.ok.injEq] at h
        subst h
        rw [List.foldlM_cons, hfa]
        simp only [except_bind_ok, except_pure_bind]
        rw [ih (upd d0 b) bs0 hml]
        rfl

theorem any_false_of_not_mem (d : List (String × Freq)) (w : String)
    (h : w ∉ d.map Prod.fst) : d.any (fun p => p.1 = w) = false := by
  rw [List.any_eq_false]
  intro p hp
  simp only [decide_eq_true_eq]
  intro he
  exact h (he ▸ List.mem_map_of_mem Prod.fst hp)

theorem foldl_set_fresh :
    ∀ (pairs d0 : List (String × Freq)),
      (pairs.map Prod.fst).Nodup →
      (∀ k ∈ pairs.map Prod.fst, k ∉ d0.map Prod.fst) →
      pairs.foldl (fun d b => dictSet d b.1 b.2) d0 = d0 ++ pairs := by
  intro pairs
  induction pairs with
  | nil => intro d0 _ _; simp
  | cons a l ih =>
    intro d0 hnd hfresh
    rw [List.map_cons, List.nodup_cons] at hnd
    rw [List.foldl_cons]
    have ha : a.1 ∉ d0.map Prod.fst :=
      hfresh a.1 (by rw [List.map_cons]; exact List.mem_cons_self _ _)
    have hset : dictSet d0 a.1 a.2 = d0 ++ [a] := by
      unfold dictSet
      rw [if_neg (by rw [any_false_of_not_mem d0 a.1 ha]; simp)]
    rw [hset, ih (d0 ++ [a]) hnd.2]
    · simp
    · intro k hk
      rw [List.map_append]
      intro hmem
      rcases List.mem_append.mp hmem with hmem | hmem
      · exact hfresh k (by rw [List.map_cons]; exact
          List.mem_cons_of_mem _ hk) hmem
      · simp at hmem
        exact hnd.1 (hmem ▸ hk)

theorem lookup_map_keyfun (g : String → Freq) :
    ∀ ks : List String, ∀ w ∈ ks,
      List.lookup w (ks.map (fun k => (k, g k))) = some (g w) := by
  intro ks
  induction ks with
  | nil => intro w hw; simp at hw
  | cons k ks ih =>
    intro w hw
    rw [List.map_cons, lookup_cons_ite]
    by_cases hwk : w = k
    · rw [if_pos hwk, hwk]
    · rw [if_neg hwk]
      exact ih w (by
        rcases List.mem_cons.mp hw with h | h
        · exact absurd h hwk
        · exact h)

/-- C7 counterexample: a table whose single word contains a comma saves to
`a,b,1.0`, which `load_canonical` rejects with a format error, so the
round-trip fails to reproduce the word set. -/
theorem C7_counterexample :
    Wordlist.load_stream (pyLines ((Wordlist.mk [("a,b", 1)]).save)) =
      Except.error Err.formatError := by
  have hsave : (Wordlist.mk [("a,b", (1 : Freq))]).save = ("a,b,1.0\n").data := by
    norm_num +decide [Wordlist.save, Wordlist.sorted_words, Wordlist.get,
      dictGet, formatTenth, roundHalfEven, natToDigits, natToDigitsAux,
      digitChar]
  rw [hsave]
  simp +decide [Wordlist.load_stream, pyLines, parseCanonLine,
    splitOnChar, rstrip, List.foldlM]

/-- C7 (amended): for every non-empty table with unique keys, positive
frequencies and words free of comma and newline characters, the canonical
round-trip succeeds, reproduces exactly the word set, and every frequency
is recovered to within `1/20 = 0.05`. -/
theorem C7_amended_roundtrip (t : Wordlist)
    (hnd : (t.worddict.map Prod.fst).Nodup)
    (_hne : t.worddict ≠ [])
    (hwords : ∀ w ∈ t.worddict.map Prod.fst, ',' ∉ w.data ∧ '\n' ∉ w.data)
    (_hpos : ∀ p ∈ t.worddict, 0 < p.2) :
    ∃ t' : Wordlist,
      Wordlist.load_stream (pyLines t.save) = Except.ok t' ∧
        (t'.worddict.map Prod.fst).Perm (t.worddict.map Prod.fst) ∧
        (∀ w q, List.lookup w t.worddict = some q →
          ∃ q', List.lookup w t'.worddict = some q' ∧ |q' - q| ≤ 1 / 20) := by
  have hperm : t.sorted_words.Perm (t.worddict.map Prod.fst) :=
    List.perm_insertionSort (sortRel t) (t.worddict.map Prod.fst)
  have hwords2 : ∀ w ∈ t.sorted_words, ',' ∉ w.data ∧ '\n' ∉ w.data :=
    fun w hw => hwords w (hperm.mem_iff.mp hw)
  have hnds : t.sorted_words.Nodup := hperm.nodup_iff.mpr hnd
  -- the recovered value of each word
  have hsave : t.save = ((t.sorted_words.map
      (fun w => w.data ++ [','] ++ formatTenth (t.get w 0))).map
        (fun l => l ++ ['\n'])).flatten := by
    unfold Wordlist.save
    rw [List.map_map]
    rfl
  have hlines : pyLines t.save = t.sorted_words.map
      (fun w => w.data ++ [','] ++ formatTenth (t.get w 0)) := by
    rw [hsave]
    apply pyLines_flatten
    intro l hl
    obtain ⟨w, hwmem, hwl⟩ := List.mem_map.mp hl
    rw [← hwl]
    intro hmem
    rcases List.mem_append.mp hmem with hmem | hmem
    · rcases List.mem_append.mp hmem with hmem | hmem
      · exact (hwords2 w hwmem).2 hmem
      · simp at hmem
    · exact formatTenth_no_nl _ hmem
  have hpairs : (t.sorted_words.map
      (fun w => w.data ++ [','] ++ formatTenth (t.get w 0))).mapM
        parseCanonLine =
      Except.ok (t.sorted_words.map
        (fun w => (w, ((roundHalfEven (10 * t.get w 0) : ℤ) : ℚ) / 10))) := by
    apply mapM_map_ok
    intro w hw
    exact parseCanonLine_saved w (t.get w 0) (hwords2 w hw).1
  refine ⟨Wordlist.mk (t.sorted_words.map
    (fun w => (w, ((roundHalfEven (10 * t.get w 0) : ℤ) : ℚ) / 10))), ?_, ?_, ?_⟩
  · unfold Wordlist.load_stream
    rw [hlines]
    rw [foldlM_except_of_mapM parseCanonLine
      (fun d b => dictSet d b.1 b.2) _ [] _ hpairs]
    rw [foldl_set_fresh _ [] (by
        simp only [List.map_map]
        have : (Prod.fst ∘ fun w =>
            (w, ((roundHalfEven (10 * t.get w 0) : ℤ) : ℚ) / 10)) = id := by
          funext w
          rfl
        rw [this, List.map_id]
        exact hnds)
      (by intro k _ hk; simp at hk)]
    rfl
  · simp only [List.map_map]
    have : (Prod.fst ∘ fun w =>
        (w, ((roundHalfEven (10 * t.get w 0) : ℤ) : ℚ) / 10)) = id := by
      funext w
      rfl
    rw [this, List.map_id]
    exact hperm
  · intro w q hq
    have hwmem : w ∈ t.sorted_words := by
      apply hperm.mem_iff.mpr
      exact List.mem_map_of_mem Prod.fst (lookup_mem hq)
    have hget : t.get w 0 = q := by
      unfold Wordlist.get dictGet
      rw [hq]
      rfl
    refine ⟨((roundHalfEven (10 * t.get w 0) : ℤ) : ℚ) / 10, ?_, ?_⟩
    · exact lookup_map_keyfun
        (fun w => ((roundHalfEven (10 * t.get w 0) : ℤ) : ℚ) / 10)
        t.sorted_words w hwmem
    · rw [hget]
      exact formatTenth_value_bound q

/-- C7 amended witness: the concrete two-word table round-trips. -/
theorem C7_amended_roundtrip_witness :
    ∃ t' : Wordlist,
      Wordlist.load_stream (pyLines wlEn.save) = Except.ok t' ∧
        (t'.worddict.map Prod.fst).Perm (wlEn.worddict.map Prod.fst) ∧
        (∀ w q, List.lookup w wlEn.worddict = some q →
          ∃ q', List.lookup w t'.worddict = some q' ∧ |q' - q| ≤ 1 / 20) :=
  C7_amended_roundtrip wlEn (by decide) (by decide)
    (by decide) (by decide)

end Metanl
